import Mathlib

/-!
# Buddy allocator (`virtual_alloc.c`): shallow embedding and verification

The heap header `heap_t` and every function of `virtual_alloc.c` that the
allocator operations use are embedded as Lean definitions.

Modelling conventions.

* Addresses are natural numbers and `NULL` is `0`.
* The packed status bitmap `status[n / 8] & (1 << (n % 8))` is one boolean per
  block index.
* C loops are structural recursions on a fuel argument; every entry point
  supplies a fuel that bounds the number of iterations of the loop.
* `assert` is an abort: functions that can reach an `assert` return an
  `Option`, and `none` is the aborted run.
* `uint8_t` and `uint32_t` arithmetic is reduced modulo `2^8` and `2^32` at the
  places where the C code can wrap (`sz--` in `block_sz`, the pointer
  difference in `ptr_to_block`, `(uint32_t)1 << sz`).
* Block numbers are natural numbers: `LEFT` and `PARENT` are evaluated without
  wrap-around. `PARENT` is only evaluated on a positive block number, and
  `LEFT` does not wrap on a block number below `2^31`: the block numbers of the
  tree are below `num_blocks`, which is below `2^30` when
  `initial_size - min_size + 1 < 31`.
* The `int` expression `1 << (initial_size - min_size + 1)` of `init_allocator`
  is the power of two in `Nat`. This is its C value when the shift count is
  below `31`; for a larger count the C expression is not defined. Every theorem
  about the states reached from `init_allocator` therefore assumes
  `initial_size - min_size + 1 < 31`, next to `min_size ≤ initial_size < 32`.
* `virtual_info` prints to `stdout`: the dump is the list of the printed lines,
  each with the `uint32_t` value `blk_size` that is passed to `fprintf`. The
  theorem about the dump assumes `initial_size < 31`: the `int` expression
  `1 << initial_size` is then `2^initial_size`, every printed size is below
  `2^31` and the format `%d` prints its value.
* `virtual_sbrk` is the external region primitive. Only its success or failure
  is observable by the allocator, it is the boolean argument `sbrk_ok`; the
  bytes stored in the blocks (`memcpy`) are not modelled.
-/

namespace VirtualAlloc

/-! ## Data model -/

/-- Header of the managed region, `heap_t` in `virtual_alloc.c`. -/
structure heap_t where
  initial_size : Nat
  min_size : Nat
  num_blocks : Nat
  cur_break : Nat
  last_used_block : Nat
  allow_shrink : Bool
  temp_break : Nat
  start : Nat
  status : Nat → Bool

/-- Size in bytes of the fixed part of `heap_t` (`BUDDY_ALLOCATOR_STRUCTURE_SIZE`
in `tests.c`). -/
def sizeof_heap_t : Nat := 40

/-- Macro `LEFT(blk)`: `((blk) << 1) + 1`, the value in `uint32_t` for
`blk < 2^31`. -/
def LEFT (blk : Nat) : Nat := 2 * blk + 1

/-- Macro `PARENT(blk)`: `((blk) - 1) >> 1`; every use is guarded by `blk > 0`. -/
def PARENT (blk : Nat) : Nat := (blk - 1) / 2

/-- Expression `(uint32_t)1 << sz`. -/
def shl32 (sz : Nat) : Nat := 2 ^ sz % 2 ^ 32

/-! ## Bitmap primitives -/

/-- Set block `n` as allocated. -/
def block_alloc (heap : heap_t) (n : Nat) : heap_t :=
  { heap with status := fun j => if j = n then true else heap.status j }

/-- Set block `n` as free. -/
def block_free (heap : heap_t) (n : Nat) : heap_t :=
  { heap with status := fun j => if j = n then false else heap.status j }

/-- Allocation status of block `n` (`BLK_ALLOC = true`, `BLK_FREE = false`). -/
def block_status (heap : heap_t) (n : Nat) : Bool := heap.status n

/-- Whether block `n` is the left child of its parent: `n & 1`. -/
def block_is_left (n : Nat) : Bool := n % 2 == 1

/-! ## Index arithmetic -/

/-- Loop of `my_log2`: `i` runs upwards while `fuel = 32 - i` is positive. -/
def my_log2_loop : Nat → Nat → Nat → Nat
  | 0, _, _ => 0
  | fuel + 1, n, i => if n ≤ shl32 i then i else my_log2_loop fuel n (i + 1)

/-- Function `my_log2`: the least `i < 32` with `n ≤ 2^i`, and `0` when there is
none. -/
def my_log2 (n : Nat) : Nat := my_log2_loop 32 n 0

/-- Loop of `block_sz`: climb to the root, decrementing the `uint8_t` order. -/
def block_sz_loop : Nat → Nat → Nat → Nat
  | 0, _, sz => sz
  | fuel + 1, blk, sz =>
    if blk > 0 then block_sz_loop fuel (PARENT blk) ((sz + 255) % 256) else sz

/-- Function `block_sz`: the order of block `blk`. -/
def block_sz (heap : heap_t) (blk : Nat) : Nat :=
  block_sz_loop blk blk heap.initial_size

/-- Loop of `block_to_ptr`: climb to the root, adding the current size at every
right move. -/
def block_to_ptr_loop : Nat → Nat → Nat → Nat → Nat
  | 0, _, _, offset => offset
  | fuel + 1, blk, size, offset =>
    if blk > 0 then
      block_to_ptr_loop fuel (PARENT blk) (size * 2 % 2 ^ 32)
        (if !block_is_left blk then (offset + size) % 2 ^ 32 else offset)
    else offset

/-- Function `block_to_ptr`: the starting address of block `blk`. -/
def block_to_ptr (heap : heap_t) (blk : Nat) : Nat :=
  heap.start + block_to_ptr_loop blk blk (shl32 (block_sz heap blk)) 0

/-- The address `block_to_ptr(heap, blk) + ((uint32_t)1 << block_sz(heap, blk))`
that `virtual_free` computes as the end of block `blk`. -/
def block_end (heap : heap_t) (blk : Nat) : Nat :=
  block_to_ptr heap blk + shl32 (block_sz heap blk)

/-- First loop of `ptr_to_block`: descend from the root while `offset > 0` and
`size > 0`. -/
def ptr_to_block_descend : Nat → Nat → Nat → Nat → Nat
  | 0, blk, _, _ => blk
  | fuel + 1, blk, size, offset =>
    if offset > 0 ∧ size > 0 then
      if offset ≥ size / 2 then
        ptr_to_block_descend fuel (LEFT blk + 1) (size / 2) (offset - size / 2)
      else
        ptr_to_block_descend fuel (LEFT blk) (size / 2) offset
    else blk

/-- Second loop of `ptr_to_block`: follow the left spine while the left child
is marked. -/
def ptr_to_block_spine : Nat → heap_t → Nat → Nat
  | 0, _, blk => blk
  | fuel + 1, heap, blk =>
    if LEFT blk < heap.num_blocks ∧ block_status heap (LEFT blk) = true then
      ptr_to_block_spine fuel heap (LEFT blk)
    else blk

/-- Function `ptr_to_block`: the block number of an address, `num_blocks` for an
invalid address. -/
def ptr_to_block (heap : heap_t) (ptr : Nat) : Nat :=
  if ptr < heap.start then heap.num_blocks
  else
    let offset := (ptr - heap.start) % 2 ^ 32
    if offset > 2 ^ heap.initial_size ∨ offset % 2 ^ heap.min_size ≠ 0 then
      heap.num_blocks
    else
      ptr_to_block_spine heap.num_blocks heap
        (ptr_to_block_descend (heap.initial_size + 1) 0
          (shl32 heap.initial_size) offset)

/-! ## Search and split -/

/-- The `for` loop of `find_fit` over the sibling pairs `(i, i + 1)`, `i < last`
(`last` is the C variable `end`). -/
def find_fit_scan : Nat → heap_t → Nat → Nat → Option Nat
  | 0, _, _, _ => none
  | fuel + 1, heap, i, last =>
    if i < last then
      if block_status heap i != block_status heap (i + 1) then
        some (if block_status heap i = false then i else i + 1)
      else find_fit_scan fuel heap (i + 2) last
    else none

/-- Recursion of `find_fit` on the order `sz`; `fuel` bounds the number of
orders still to visit. The outer `none` is the failed `assert`. -/
def find_fit_rec : Nat → heap_t → Nat → Option Nat
  | 0, _, _ => none
  | fuel + 1, heap, sz =>
    let first := 2 ^ (heap.initial_size - sz) - 1
    let last := 2 * first
    if last < heap.num_blocks then
      match find_fit_scan (last - first) heap first last with
      | some blk => some blk
      | none => if sz < heap.initial_size then find_fit_rec fuel heap (sz + 1) else some 0
    else none

/-- Function `find_fit`: a suitable block for order `sz`, `0` when none is
found. -/
def find_fit (heap : heap_t) (sz : Nat) : Option Nat :=
  find_fit_rec (heap.initial_size - sz + 1) heap sz

/-- The `for` loop of `block_split`: `i` runs from `sz` down to `expected_sz`. -/
def block_split_loop : Nat → heap_t → Nat → Nat → Nat → heap_t × Nat
  | 0, heap, blk, _, _ => (heap, blk)
  | fuel + 1, heap, blk, i, expected_sz =>
    if i > expected_sz then
      block_split_loop fuel (block_alloc heap (LEFT blk)) (LEFT blk) (i - 1) expected_sz
    else (heap, blk)

/-- Function `block_split`: mark `blk` and its left spine down to order
`expected_sz`. -/
def block_split (heap : heap_t) (blk expected_sz : Nat) : Option (heap_t × Nat) :=
  let sz := block_sz heap blk
  if expected_sz ≤ sz then
    some (block_split_loop sz (block_alloc heap blk) blk sz expected_sz)
  else none

/-! ## The allocator operations -/

/-- Function `init_allocator`, for `initial_size - min_size + 1 < 31`: the `int`
expression `1 << (initial_size - min_size + 1)` is then a power of two. -/
def init_allocator (heapstart initial_size min_size : Nat) : heap_t :=
  let status_size := 2 ^ (initial_size - min_size + 1) / 8 + 1
  let heap_size := sizeof_heap_t + status_size
  { initial_size := initial_size
    min_size := min_size
    num_blocks := 2 ^ (initial_size - min_size + 1) - 1
    start := heapstart + heap_size
    cur_break := heapstart + heap_size
    last_used_block := 2 ^ (initial_size - min_size + 1) - 1
    allow_shrink := true
    temp_break := 0
    status := fun _ => false }

/-- The coalescing `while` loop of `virtual_free`. -/
def free_merge : Nat → heap_t → Nat → heap_t
  | 0, heap, _ => heap
  | fuel + 1, heap, blk =>
    if blk > 0 then
      let heap1 :=
        if blk = heap.last_used_block then
          { heap with last_used_block := PARENT blk }
        else heap
      let buddy := if block_is_left blk then blk + 1 else blk - 1
      if block_status heap1 buddy = false then
        free_merge fuel (block_free heap1 (PARENT blk)) (PARENT blk)
      else heap1
    else heap

/-- The tail of `virtual_free` after the coalescing loop: recompute the end of
the used region and shrink, or cache the shrink in `temp_break`. -/
def free_shrink (heap : heap_t) : heap_t :=
  let heap1 :=
    if heap.last_used_block = 0 ∧ block_status heap 0 = false then
      { heap with last_used_block := heap.num_blocks }
    else heap
  let last :=
    if heap.last_used_block = 0 ∧ block_status heap 0 = false then heap.start
    else block_to_ptr heap heap.last_used_block
          + shl32 (block_sz heap heap.last_used_block)
  if heap1.cur_break > last then
    if heap1.allow_shrink then { heap1 with cur_break := last }
    else { heap1 with temp_break := last }
  else heap1

/-- Function `virtual_free`: the new heap and the returned `int`. -/
def virtual_free (heap : heap_t) (ptr : Nat) : heap_t × Nat :=
  if ptr = 0 then (heap, 1)
  else
    let blk := ptr_to_block heap ptr
    if blk ≥ heap.num_blocks then (heap, 1)
    else if block_status heap blk = false then (heap, 1)
    else (free_shrink (free_merge blk (block_free heap blk) blk), 0)

/-- The order requested by `size`: `my_log2 size` raised to `min_size`. -/
def req_order (heap : heap_t) (size : Nat) : Nat :=
  if my_log2 size < heap.min_size then heap.min_size else my_log2 size

/-- Function `virtual_malloc`: the new heap and the returned pointer. -/
def virtual_malloc (heap : heap_t) (size : Nat) (sbrk_ok : Bool) : Option (heap_t × Nat) :=
  if size = 0 then some (heap, 0)
  else if my_log2 size > heap.initial_size then some (heap, 0)
  else
    let sz := req_order heap size
    match find_fit heap sz with
    | none => none
    | some blk0 =>
      if blk0 = 0 ∧ block_status heap 0 = true then some (heap, 0)
      else
        match block_split heap blk0 sz with
        | none => none
        | some (heap1, blk) =>
          let ptr := block_to_ptr heap1 blk
          let last := ptr + shl32 sz
          if heap1.cur_break < last then
            if sbrk_ok then
              some ({ heap1 with cur_break := last, last_used_block := blk }, ptr)
            else some ((virtual_free heap1 ptr).1, 0)
          else some (heap1, ptr)

/-- The end of `virtual_realloc`: perform the cached shrink and allow shrinking
again. -/
def realloc_finish (heap : heap_t) : heap_t :=
  if heap.temp_break ≠ 0 then
    { heap with cur_break := heap.temp_break, temp_break := 0, allow_shrink := true }
  else { heap with allow_shrink := true }

/-- Function `virtual_realloc`: the new heap and the returned pointer. -/
def virtual_realloc (heap : heap_t) (ptr size : Nat) (sbrk_ok : Bool) :
    Option (heap_t × Nat) :=
  if ptr = 0 then virtual_malloc heap size sbrk_ok
  else if size = 0 then some ((virtual_free heap ptr).1, 0)
  else if my_log2 size > heap.initial_size then some (heap, 0)
  else
    let new_sz := req_order heap size
    let blk := ptr_to_block heap ptr
    let old_sz := block_sz heap blk
    if new_sz = old_sz then some (heap, ptr)
    else if new_sz < old_sz then
      match block_split heap blk new_sz with
      | none => none
      | some (heap1, _) => some (heap1, ptr)
    else
      let old_size := shl32 old_sz
      let heap1 := { heap with allow_shrink := false }
      let r := virtual_free heap1 ptr
      if r.2 ≠ 0 then some ({ r.1 with allow_shrink := true }, 0)
      else
        match virtual_malloc r.1 size sbrk_ok with
        | none => none
        | some (heap2, new_ptr) =>
          if new_ptr = 0 then
            match virtual_malloc heap2 old_size sbrk_ok with
            | none => none
            | some (heap3, again) =>
              if ptr = again then some (realloc_finish heap3, 0) else none
          else some (realloc_finish heap2, new_ptr)

/-! ## The dump -/

/-- One line printed by `virtual_info_r`: `free <size>` or `allocated <size>`. -/
inductive info_line where
  | free (size : Nat)
  | allocated (size : Nat)
  deriving DecidableEq

/-- Function `virtual_info_r`: the lines printed for the subtree of block `blk`,
in the order of printing. Every recursive call is on a child, a larger block
number below `num_blocks`, and `fuel` bounds the depth of the recursion. -/
def virtual_info_r : Nat → heap_t → Nat → Nat → List info_line
  | 0, _, _, _ => []
  | fuel + 1, heap, blk, blk_size =>
    if LEFT blk < heap.num_blocks ∧
        (block_status heap (LEFT blk) = true ∨ block_status heap (LEFT blk + 1) = true) then
      virtual_info_r fuel heap (LEFT blk) (blk_size / 2)
        ++ virtual_info_r fuel heap (LEFT blk + 1) (blk_size / 2)
    else if block_status heap blk = false then [info_line.free blk_size]
    else [info_line.allocated blk_size]

/-- Function `virtual_info`: the lines of the dump, for `initial_size < 31`
(the `int` expression `1 << initial_size`). -/
def virtual_info (heap : heap_t) : List info_line :=
  virtual_info_r heap.num_blocks heap 0 (2 ^ heap.initial_size)

/-- One call of the public interface. -/
inductive Op where
  | malloc (size : Nat)
  | free (ptr : Nat)
  | realloc (ptr size : Nat)

/-- The heap together with the allocations that are live: the pairs
`(pointer, order)` returned by `virtual_malloc` or `virtual_realloc` and not
yet freed or replaced. -/
structure alloc_state where
  heap : heap_t
  live : List (Nat × Nat)

/-- The live allocations other than the one at `ptr`. -/
def drop_live (live : List (Nat × Nat)) (ptr : Nat) : List (Nat × Nat) :=
  live.filter (fun a => a.1 != ptr)

/-- One valid-use call: `virtual_sbrk` succeeds, the pointer given to
`virtual_free` or `virtual_realloc` is live, and no `assert` fails. The result
is `none` when the call is not a valid use. -/
def step (s : alloc_state) : Op → Option alloc_state
  | Op.malloc size =>
    match virtual_malloc s.heap size true with
    | none => none
    | some (heap1, ptr) =>
      some ⟨heap1, if ptr = 0 then s.live else (ptr, req_order s.heap size) :: s.live⟩
  | Op.free ptr =>
    if ptr ∈ s.live.map Prod.fst then
      some ⟨(virtual_free s.heap ptr).1,
        if (virtual_free s.heap ptr).2 = 0 then drop_live s.live ptr else s.live⟩
    else none
  | Op.realloc ptr size =>
    if ptr ∈ s.live.map Prod.fst then
      match virtual_realloc s.heap ptr size true with
      | none => none
      | some (heap1, new_ptr) =>
        some ⟨heap1,
          if size = 0 then drop_live s.live ptr
          else if new_ptr = 0 then s.live
          else (new_ptr, req_order s.heap size) :: drop_live s.live ptr⟩
    else none

/-- A sequence of valid-use calls. -/
def run (s : alloc_state) : List Op → Option alloc_state
  | [] => some s
  | op :: ops =>
    match step s op with
    | none => none
    | some s1 => run s1 ops

/-- The state right after `init_allocator`. -/
def init_state (heapstart K M : Nat) : alloc_state :=
  ⟨init_allocator heapstart K M, []⟩

/-- States reached from `init_allocator heapstart K M` by valid-use calls. -/
inductive Reachable (heapstart K M : Nat) : alloc_state → Prop
  | init : Reachable heapstart K M (init_state heapstart K M)
  | step {s s1 : alloc_state} (op : Op) :
      Reachable heapstart K M s → step s op = some s1 → Reachable heapstart K M s1

/-! ## Tree coordinates and the ancestor relation -/

/-- Index of the `j`-th block (from the left) at depth `d` of the buddy tree. -/
def node (d j : Nat) : Nat := 2 ^ d - 1 + j

/-- Relation `anc i n`: block `i` is block `n` or an ancestor of `n`: `i` is
reached from `n` by finitely many `PARENT` steps. -/
inductive anc : Nat → Nat → Prop
  | refl (i : Nat) : anc i i
  | up {i n : Nat} : 0 < n → anc i (PARENT n) → anc i n

/-- The sibling of block `blk`, as computed in `virtual_free`. -/
def buddy_of (blk : Nat) : Nat := if block_is_left blk then blk + 1 else blk - 1

/-- The bitmap `st` marks exactly the blocks that are, or lie above, a block of
the set `P`. -/
def Rep (st : Nat → Bool) (P : Nat → Prop) : Prop :=
  ∀ i, st i = true ↔ ∃ n, P n ∧ anc i n

/-- No block of the set `P` lies above another block of `P`. -/
def Anti (P : Nat → Prop) : Prop :=
  ∀ n m, P n → P m → anc n m → n = m

/-- The two siblings of pair `k` at depth `d` have the same status bit. -/
def pair_eq (heap : heap_t) (d k : Nat) : Prop :=
  heap.status (node d (2 * k)) = heap.status (node d (2 * k + 1))

/-- The member of pair `k` at depth `d` that `find_fit` returns when the status
bits of the pair differ. -/
def free_of_pair (heap : heap_t) (d k : Nat) : Nat :=
  if heap.status (node d (2 * k)) = false then node d (2 * k) else node d (2 * k + 1)

/-- What `find_fit heap sz` returns: `0` when no sibling pair of an order in
`[sz, K)` has different status bits, and otherwise the clear member of the first
such pair at the smallest such order (the largest depth `d` with `d + sz ≤ K`). -/
def find_fit_spec (heap : heap_t) (K sz f : Nat) : Prop :=
  (f = 0 ∧ ∀ d k, 1 ≤ d → d + sz ≤ K → 2 * k + 1 < 2 ^ d → pair_eq heap d k) ∨
  (∃ d k, 1 ≤ d ∧ d + sz ≤ K ∧ 2 * k + 1 < 2 ^ d ∧ ¬ pair_eq heap d k ∧
    f = free_of_pair heap d k ∧ (∀ k1, k1 < k → pair_eq heap d k1) ∧
    (∀ d1 k1, d < d1 → d1 + sz ≤ K → 2 * k1 + 1 < 2 ^ d1 → pair_eq heap d1 k1))

/-! ## The invariant of valid-use runs -/

/-- Allocation `a = (pointer, order)` of a heap with initial order `K`, minimum
order `M` and user area start `S` occupies block `n`: `n` is the block of order
`a.2` whose first byte is at address `a.1`. -/
def occupies (K M S : Nat) (a : Nat × Nat) (n : Nat) : Prop :=
  ∃ d j, j < 2 ^ d ∧ d + M ≤ K ∧ a.2 + d = K ∧ a.1 = S + j * 2 ^ a.2 ∧ n = node d j

/-- The blocks occupied by the live allocations. -/
def live_nodes (K M S : Nat) (live : List (Nat × Nat)) (n : Nat) : Prop :=
  ∃ a, a ∈ live ∧ occupies K M S a n

/-- The invariant kept by `virtual_malloc`, `virtual_free` and the steps of
`virtual_realloc`. -/
structure Core (K M S : Nat) (s : alloc_state) : Prop where
  hK : s.heap.initial_size = K
  hM : s.heap.min_size = M
  hN : s.heap.num_blocks = 2 ^ (K - M + 1) - 1
  hS : s.heap.start = S
  wf : ∀ a, a ∈ s.live → ∃ n, occupies K M S a n
  nodup : (s.live.map Prod.fst).Nodup
  anti : Anti (live_nodes K M S s.live)
  rep : Rep s.heap.status (live_nodes K M S s.live)
  brk_ge : S ≤ s.heap.cur_break
  tmp_ge : s.heap.temp_break = 0 ∨ S ≤ s.heap.temp_break
  last_top : s.heap.last_used_block = s.heap.num_blocks →
    s.heap.temp_break = S ∨ (s.heap.temp_break = 0 ∧ s.heap.cur_break = S)
  last_set : s.heap.last_used_block ≠ s.heap.num_blocks →
    s.heap.status s.heap.last_used_block = true
  brk_le : s.heap.last_used_block ≠ s.heap.num_blocks →
    s.heap.cur_break ≤ block_end s.heap s.heap.last_used_block
  tmp_le : s.heap.temp_break ≠ 0 → s.heap.temp_break ≤ s.heap.cur_break

/-- Heap `heap1` differs from `heap` in the status bitmap at most. -/
def same_header (heap heap1 : heap_t) : Prop :=
  heap1.initial_size = heap.initial_size ∧ heap1.min_size = heap.min_size ∧
  heap1.num_blocks = heap.num_blocks ∧ heap1.start = heap.start ∧
  heap1.cur_break = heap.cur_break ∧ heap1.last_used_block = heap.last_used_block ∧
  heap1.allow_shrink = heap.allow_shrink ∧ heap1.temp_break = heap.temp_break

/-- The invariant that holds between two calls of the public interface. -/
structure Inv (K M S : Nat) (s : alloc_state) : Prop where
  core : Core K M S s
  allow : s.heap.allow_shrink = true
  tmp : s.heap.temp_break = 0

/-- Allocation `a = (pointer, order)` sits at block `n`: `n` is a block of the
tree whose starting address is `a.1` and whose order is `a.2`. -/
def sits_at (heap : heap_t) (a : Nat × Nat) (n : Nat) : Prop :=
  n < heap.num_blocks ∧ block_to_ptr heap n = a.1 ∧ block_sz heap n = a.2

/-- The byte ranges `[a.1, a.1 + 2^a.2)` and `[b.1, b.1 + 2^b.2)` are disjoint. -/
def disjoint_ranges (a b : Nat × Nat) : Prop :=
  a.1 + 2 ^ a.2 ≤ b.1 ∨ b.1 + 2 ^ b.2 ≤ a.1

/-- Block `b` is marked and is not split: it is a leaf of the tree or both its
children are clear. -/
def is_allocation (heap : heap_t) (b : Nat) : Prop :=
  heap.status b = true ∧
    (heap.num_blocks ≤ LEFT b ∨
      (heap.status (LEFT b) = false ∧ heap.status (LEFT b + 1) = false))

/-- The state that a list of valid-use calls reaches from `init_allocator`; the
initial state when the list is not a valid use. -/
def state_after (heapstart K M : Nat) (ops : List Op) : alloc_state :=
  (run (init_state heapstart K M) ops).getD (init_state heapstart K M)

/-- Block `n` of the tree is available: its byte range is disjoint from the byte
range of every live allocation. -/
def block_available (s : alloc_state) (n : Nat) : Prop :=
  n < s.heap.num_blocks ∧
    ∀ a, a ∈ s.live → disjoint_ranges (block_to_ptr s.heap n, block_sz s.heap n) a

/-- Block `n` is a maximal free block: its bit is clear and it is the root or
the sibling of a marked block. -/
def maximal_free (heap : heap_t) (n : Nat) : Prop :=
  n < heap.num_blocks ∧ heap.status n = false ∧ (n = 0 ∨ heap.status (buddy_of n) = true)

theorem two_pow_pos_nat (d : Nat) : 0 < 2 ^ d := Nat.pos_pow_of_pos d (by decide)

theorem node_zero : node 0 0 = 0 := by simp [node]

theorem LEFT_node (d j : Nat) : LEFT (node d j) = node (d + 1) (2 * j) := by
  have := two_pow_pos_nat d
  simp only [LEFT, node, pow_succ]; omega

theorem RIGHT_node (d j : Nat) : LEFT (node d j) + 1 = node (d + 1) (2 * j + 1) := by
  have := two_pow_pos_nat d
  simp only [LEFT, node, pow_succ]; omega

theorem PARENT_node (d j : Nat) : PARENT (node (d + 1) j) = node d (j / 2) := by
  have := two_pow_pos_nat d
  simp only [PARENT, node, pow_succ]; omega

theorem node_succ_pos (d j : Nat) : 0 < node (d + 1) j := by
  have := two_pow_pos_nat d
  simp only [node, pow_succ]; omega

theorem block_is_left_node (d j : Nat) :
    block_is_left (node (d + 1) j) = (j % 2 == 0) := by
  have := two_pow_pos_nat d
  have h : (2 ^ (d + 1) - 1 + j) % 2 = (j + 1) % 2 := by
    simp only [pow_succ]; omega
  simp only [block_is_left, node, h]
  rcases Nat.mod_two_eq_zero_or_one j with h0 | h0 <;> simp [h0] <;> omega

theorem node_inj {d j d' j' : Nat} (hj : j < 2 ^ d) (hj' : j' < 2 ^ d')
    (h : node d j = node d' j') : d = d' ∧ j = j' := by
  have hd : d = d' := by
    by_contra hne
    rcases Nat.lt_or_gt_of_ne hne with hlt | hlt
    · have := Nat.pow_le_pow_right (by decide : 1 ≤ 2) (Nat.succ_le_of_lt hlt)
      have := two_pow_pos_nat d
      simp only [node, pow_succ] at *; omega
    · have := Nat.pow_le_pow_right (by decide : 1 ≤ 2) (Nat.succ_le_of_lt hlt)
      have := two_pow_pos_nat d'
      simp only [node, pow_succ] at *; omega
  subst hd
  exact ⟨rfl, by simp only [node] at h; omega⟩

theorem exists_node (n : Nat) : ∃ d j, j < 2 ^ d ∧ n = node d j := by
  refine ⟨Nat.log 2 (n + 1), n + 1 - 2 ^ Nat.log 2 (n + 1), ?_, ?_⟩
  · have h1 : n + 1 < 2 ^ (Nat.log 2 (n + 1) + 1) :=
      Nat.lt_pow_succ_log_self (by decide : 1 < 2) (n + 1)
    have h2 : 2 ^ Nat.log 2 (n + 1) ≤ n + 1 := Nat.pow_log_le_self 2 (Nat.succ_ne_zero n)
    simp only [pow_succ] at h1; omega
  · have h2 : 2 ^ Nat.log 2 (n + 1) ≤ n + 1 := Nat.pow_log_le_self 2 (Nat.succ_ne_zero n)
    have := two_pow_pos_nat (Nat.log 2 (n + 1))
    simp only [node]; omega

theorem node_lt_iff {d j e : Nat} (hj : j < 2 ^ d) : node d j < 2 ^ (e + 1) - 1 ↔ d ≤ e := by
  have := two_pow_pos_nat d
  constructor
  · intro h
    by_contra hne
    have := Nat.pow_le_pow_right (by decide : 1 ≤ 2) (Nat.succ_le_of_lt (Nat.lt_of_not_le hne))
    simp only [node] at h; omega
  · intro h
    have := Nat.pow_le_pow_right (by decide : 1 ≤ 2) (Nat.succ_le_succ h)
    simp only [node, pow_succ] at *; omega

theorem le_node (d j : Nat) : d ≤ node d j := by
  have : d < 2 ^ d := Nat.lt_two_pow d
  simp only [node]; omega

/-! ## Closed forms of the index arithmetic -/

theorem block_sz_loop_node (d : Nat) : ∀ (fuel j sz : Nat), j < 2 ^ d → d ≤ fuel → d ≤ sz →
    sz < 256 → block_sz_loop fuel (node d j) sz = sz - d := by
  induction d with
  | zero =>
    intro fuel j sz hj _ _ _
    have hj0 : j = 0 := by simpa using hj
    subst hj0
    cases fuel with
    | zero => simp [block_sz_loop]
    | succ f => simp [block_sz_loop, node_zero]
  | succ d ih =>
    intro fuel j sz hj hf hs hlt
    cases fuel with
    | zero => omega
    | succ f =>
      have hpos := node_succ_pos d j
      have hj2 : j / 2 < 2 ^ d := by simp only [pow_succ] at hj; omega
      simp only [block_sz_loop, hpos, gt_iff_lt, if_true, PARENT_node]
      rw [ih f (j / 2) _ hj2 (by omega) (by omega) (by omega)]
      omega

theorem block_sz_node (heap : heap_t) {d j : Nat} (hj : j < 2 ^ d) (hd : d ≤ heap.initial_size)
    (hK : heap.initial_size < 256) : block_sz heap (node d j) = heap.initial_size - d :=
  block_sz_loop_node d _ j _ hj (le_node d j) hd hK

theorem shl32_eq {s : Nat} (h : s < 32) : shl32 s = 2 ^ s :=
  Nat.mod_eq_of_lt (Nat.pow_lt_pow_right (by decide) h)

theorem block_to_ptr_loop_node (d : Nat) : ∀ (fuel j r offset : Nat), j < 2 ^ d → d ≤ fuel →
    r + d < 32 → offset < 2 ^ r →
    block_to_ptr_loop fuel (node d j) (2 ^ r) offset = offset + j * 2 ^ r := by
  induction d with
  | zero =>
    intro fuel j r offset hj _ _ _
    have hj0 : j = 0 := by simpa using hj
    subst hj0
    cases fuel with
    | zero => simp [block_to_ptr_loop]
    | succ f => simp [block_to_ptr_loop, node_zero]
  | succ d ih =>
    intro fuel j r offset hj hf hr ho
    cases fuel with
    | zero => omega
    | succ f =>
      have hpos := node_succ_pos d j
      have hj2 : j / 2 < 2 ^ d := by simp only [pow_succ] at hj; omega
      have hsz : 2 ^ r * 2 % 2 ^ 32 = 2 ^ (r + 1) := by
        rw [← pow_succ]
        exact Nat.mod_eq_of_lt (Nat.pow_lt_pow_right (by decide) (by omega))
      have hlt : 2 ^ (r + 1) < 2 ^ 32 := Nat.pow_lt_pow_right (by decide) (by omega)
      have hmul : j / 2 * 2 ^ (r + 1) = (j / 2 * 2) * 2 ^ r := by
        rw [pow_succ]; ring
      simp only [block_to_ptr_loop, hpos, gt_iff_lt, if_true, PARENT_node, hsz,
        block_is_left_node]
      rcases Nat.mod_two_eq_zero_or_one j with h0 | h0
      · have hj' : j / 2 * 2 = j := by omega
        simp only [h0, beq_self_eq_true, Bool.not_true, Bool.false_eq_true, if_false]
        rw [ih f (j / 2) (r + 1) offset hj2 (by omega) (by omega)
          (by simp only [pow_succ]; omega), hmul, hj']
      · have hj' : j / 2 * 2 + 1 = j := by omega
        have hoff : (offset + 2 ^ r) % 2 ^ 32 = offset + 2 ^ r :=
          Nat.mod_eq_of_lt (by simp only [pow_succ] at hlt; omega)
        simp only [h0, hoff]
        rw [show ((1 == 0) = false) from rfl]
        simp only [Bool.not_false, if_true]
        rw [ih f (j / 2) (r + 1) (offset + 2 ^ r) hj2 (by omega) (by omega)
          (by simp only [pow_succ]; omega), hmul]
        have : j * 2 ^ r = (j / 2 * 2) * 2 ^ r + 2 ^ r := by
          conv_lhs => rw [← hj']
          ring
        omega

theorem block_to_ptr_node (heap : heap_t) {d j : Nat} (hj : j < 2 ^ d)
    (hd : d ≤ heap.initial_size) (hK : heap.initial_size < 32) :
    block_to_ptr heap (node d j) = heap.start + j * 2 ^ (heap.initial_size - d) := by
  simp only [block_to_ptr]
  rw [block_sz_node heap hj hd (by omega), shl32_eq (by omega),
    block_to_ptr_loop_node d _ j _ 0 hj (le_node d j) (by omega) (two_pow_pos_nat _)]
  simp

/-! ## The ancestor relation of the buddy tree -/


theorem block_is_left_iff (n : Nat) : block_is_left n = true ↔ n % 2 = 1 := by
  simp [block_is_left]

theorem buddy_of_odd {n : Nat} (h : n % 2 = 1) : buddy_of n = n + 1 := by
  simp [buddy_of, block_is_left, h]

theorem buddy_of_even {n : Nat} (h : n % 2 = 0) : buddy_of n = n - 1 := by
  simp [buddy_of, block_is_left, h]

theorem buddy_cases (n : Nat) :
    (n % 2 = 1 ∧ buddy_of n = n + 1) ∨ (n % 2 = 0 ∧ buddy_of n = n - 1) := by
  rcases Nat.mod_two_eq_zero_or_one n with h | h
  · exact Or.inr ⟨h, buddy_of_even h⟩
  · exact Or.inl ⟨h, buddy_of_odd h⟩

theorem anc_le {i n : Nat} (h : anc i n) : i ≤ n := by
  induction h with
  | refl => exact Nat.le_refl _
  | up hpos _ ih => simp only [PARENT] at ih; omega

theorem anc_trans {a b c : Nat} (h1 : anc a b) (h2 : anc b c) : anc a c := by
  induction h2 with
  | refl => exact h1
  | up hpos _ ih => exact anc.up hpos ih

theorem anc_antisymm {a b : Nat} (h1 : anc a b) (h2 : anc b a) : a = b :=
  Nat.le_antisymm (anc_le h1) (anc_le h2)

theorem anc_parent {n : Nat} (h : 0 < n) : anc (PARENT n) n := anc.up h (anc.refl _)

theorem anc_strict {i n : Nat} (h : anc i n) (hne : i ≠ n) : 0 < n ∧ anc i (PARENT n) := by
  cases h with
  | refl => exact absurd rfl hne
  | up hpos h' => exact ⟨hpos, h'⟩

theorem anc_LEFT (n : Nat) : anc n (LEFT n) := by
  have h : PARENT (LEFT n) = n := by simp only [PARENT, LEFT]; omega
  have := anc_parent (n := LEFT n) (by simp only [LEFT]; omega)
  rwa [h] at this

theorem anc_RIGHT (n : Nat) : anc n (LEFT n + 1) := by
  have h : PARENT (LEFT n + 1) = n := by simp only [PARENT, LEFT]; omega
  have := anc_parent (n := LEFT n + 1) (by omega)
  rwa [h] at this

theorem PARENT_buddy {n : Nat} (h : 0 < n) : PARENT (buddy_of n) = PARENT n := by
  rcases buddy_cases n with ⟨h1, h2⟩ | ⟨h1, h2⟩ <;> rw [h2] <;> simp only [PARENT] <;> omega

theorem buddy_pos {n : Nat} (h : 0 < n) : 0 < buddy_of n := by
  rcases buddy_cases n with ⟨h1, h2⟩ | ⟨h1, h2⟩ <;> rw [h2] <;> omega

theorem buddy_ne (n : Nat) (h : 0 < n) : buddy_of n ≠ n := by
  rcases buddy_cases n with ⟨h1, h2⟩ | ⟨h1, h2⟩ <;> rw [h2] <;> omega

/-- A block below `PARENT blk` is `PARENT blk` itself or lies below one of its
two children. -/
theorem anc_parent_cases {blk a : Nat} (hb : 0 < blk) (h : anc (PARENT blk) a) :
    a = PARENT blk ∨ anc blk a ∨ anc (buddy_of blk) a := by
  generalize hp : PARENT blk = p at h
  induction h with
  | refl => exact Or.inl rfl
  | @up n hpos h' ih =>
    right
    rcases ih with h1 | h1 | h1
    · have : n = blk ∨ n = buddy_of blk := by
        rcases buddy_cases blk with ⟨h2, h3⟩ | ⟨h2, h3⟩ <;> rw [h3] <;>
          simp only [PARENT] at h1 hp <;> omega
      rcases this with h2 | h2
      · exact Or.inl (h2 ▸ anc.refl _)
      · exact Or.inr (h2 ▸ anc.refl _)
    · exact Or.inl (anc.up hpos h1)
    · exact Or.inr (anc.up hpos h1)

theorem not_anc_buddy {blk : Nat} (hb : 0 < blk) : ¬ anc (buddy_of blk) blk := by
  intro h
  have h1 := anc_strict h (buddy_ne blk hb)
  have h2 := anc_le h1.2
  rcases buddy_cases blk with ⟨h3, h4⟩ | ⟨h3, h4⟩ <;> rw [h4] at h2 <;>
    simp only [PARENT] at h2 <;> omega

/-- Two siblings have no common block below them. -/
theorem anc_buddy_disjoint {blk a : Nat} (hb : 0 < blk) (h1 : anc blk a)
    (h2 : anc (buddy_of blk) a) : False := by
  induction h1 with
  | refl => exact not_anc_buddy hb h2
  | @up n hpos h' ih =>
    apply ih
    by_cases hne : buddy_of blk = n
    · exfalso
      have := anc_le h'
      rcases buddy_cases blk with ⟨h3, h4⟩ | ⟨h3, h4⟩ <;> rw [h4] at hne <;>
        simp only [PARENT] at this <;> omega
    · exact (anc_strict h2 hne).2


/-! ## The left spine below a block -/

theorem LEFT_iterate_node (t d j : Nat) : LEFT^[t] (node d j) = node (d + t) (j * 2 ^ t) := by
  induction t with
  | zero => simp
  | succ t ih =>
    rw [Function.iterate_succ_apply', ih, LEFT_node, pow_succ]
    congr 1
    ring

theorem PARENT_LEFT (n : Nat) : PARENT (LEFT n) = n := by
  simp only [PARENT, LEFT]; omega

theorem anc_LEFT_iterate (t f : Nat) : anc f (LEFT^[t] f) := by
  induction t with
  | zero => exact anc.refl _
  | succ t ih =>
    rw [Function.iterate_succ_apply']
    exact anc_trans ih (anc_LEFT _)

/-- The blocks above `LEFT^[t] f` are the blocks above `f` and the spine blocks
`LEFT^[s] f`, `1 ≤ s ≤ t`. -/
theorem anc_LEFT_iterate_iff (t f x : Nat) :
    anc x (LEFT^[t] f) ↔ anc x f ∨ ∃ s, 1 ≤ s ∧ s ≤ t ∧ x = LEFT^[s] f := by
  induction t with
  | zero =>
    simp only [Function.iterate_zero, id_eq]
    constructor
    · intro h; exact Or.inl h
    · rintro (h | ⟨s, h1, h2, _⟩)
      · exact h
      · omega
  | succ t ih =>
    rw [Function.iterate_succ_apply']
    constructor
    · intro h
      by_cases hx : x = LEFT (LEFT^[t] f)
      · right
        refine ⟨t + 1, by omega, le_refl _, ?_⟩
        rw [Function.iterate_succ_apply']; exact hx
      · have h1 := (anc_strict h hx).2
        rw [PARENT_LEFT] at h1
        rcases ih.mp h1 with h2 | ⟨s, h2, h3, h4⟩
        · exact Or.inl h2
        · exact Or.inr ⟨s, h2, by omega, h4⟩
    · rintro (h | ⟨s, h1, h2, h3⟩)
      · exact anc_trans (ih.mpr (Or.inl h)) (anc_LEFT _)
      · by_cases hs : s = t + 1
        · subst hs
          rw [h3, Function.iterate_succ_apply']
          exact anc.refl _
        · exact anc_trans (ih.mpr (Or.inr ⟨s, h1, by omega, h3⟩)) (anc_LEFT _)

/-! ## Effect of `block_split` -/

theorem block_split_loop_spec (fuel : Nat) : ∀ (heap : heap_t) (blk i e : Nat), i - e ≤ fuel →
    (block_split_loop fuel heap blk i e).2 = LEFT^[i - e] blk ∧
    (∀ x, (block_split_loop fuel heap blk i e).1.status x = true ↔
      heap.status x = true ∨ ∃ s, 1 ≤ s ∧ s ≤ i - e ∧ x = LEFT^[s] blk) ∧
    (block_split_loop fuel heap blk i e).1.initial_size = heap.initial_size ∧
    (block_split_loop fuel heap blk i e).1.min_size = heap.min_size ∧
    (block_split_loop fuel heap blk i e).1.num_blocks = heap.num_blocks ∧
    (block_split_loop fuel heap blk i e).1.start = heap.start ∧
    (block_split_loop fuel heap blk i e).1.cur_break = heap.cur_break ∧
    (block_split_loop fuel heap blk i e).1.last_used_block = heap.last_used_block ∧
    (block_split_loop fuel heap blk i e).1.allow_shrink = heap.allow_shrink ∧
    (block_split_loop fuel heap blk i e).1.temp_break = heap.temp_break := by
  induction fuel with
  | zero =>
    intro heap blk i e hf
    have h0 : i - e = 0 := by omega
    simp only [block_split_loop, h0, Function.iterate_zero, id_eq, and_self, and_true, true_and]
    intro x
    constructor
    · intro h; exact Or.inl h
    · rintro (h | ⟨s, h1, h2, _⟩)
      · exact h
      · omega
  | succ fuel ih =>
    intro heap blk i e hf
    by_cases hie : i > e
    · have hrec := ih (block_alloc heap (LEFT blk)) (LEFT blk) (i - 1) e (by omega)
      have hsub : i - e = (i - 1 - e) + 1 := by omega
      simp only [block_split_loop, hie, if_true]
      obtain ⟨h1, h2, h3⟩ := hrec
      refine ⟨?_, ?_, h3⟩
      · rw [h1, hsub, Function.iterate_succ_apply]
      · intro x
        rw [h2 x, hsub]
        simp only [block_alloc]
        constructor
        · rintro (h | ⟨s, hs1, hs2, hs3⟩)
          · by_cases hx : x = LEFT blk
            · exact Or.inr ⟨1, le_refl _, by omega, by simpa using hx⟩
            · simp only [hx, if_false] at h; exact Or.inl h
          · refine Or.inr ⟨s + 1, by omega, by omega, ?_⟩
            rw [Function.iterate_succ_apply]; exact hs3
        · rintro (h | ⟨s, hs1, hs2, hs3⟩)
          · left
            by_cases hx : x = LEFT blk
            · simp [hx]
            · simp only [hx, if_false]; exact h
          · by_cases hs : s = 1
            · subst hs
              left
              have : x = LEFT blk := by simpa using hs3
              simp [this]
            · right
              refine ⟨s - 1, by omega, by omega, ?_⟩
              have : s = (s - 1) + 1 := by omega
              rw [this, Function.iterate_succ_apply] at hs3
              exact hs3
    · have h0 : i - e = 0 := by omega
      simp only [block_split_loop, hie, if_false, h0, Function.iterate_zero, id_eq, and_self,
        and_true, true_and]
      intro x
      constructor
      · intro h; exact Or.inl h
      · rintro (h | ⟨s, h1, h2, _⟩)
        · exact h
        · omega

/-! ## Bitmap representation under split -/

theorem Rep_above_buddy {st : Nat → Bool} {P : Nat → Prop} {f x : Nat} (hR : Rep st P)
    (hpos : 0 < f) (hb : st (buddy_of f) = true) (hx : anc x (PARENT f)) : st x = true := by
  obtain ⟨n, hn, han⟩ := (hR _).mp hb
  refine (hR x).mpr ⟨n, hn, anc_trans hx (anc_trans ?_ han)⟩
  have := anc_parent (buddy_pos hpos)
  rwa [PARENT_buddy hpos] at this

theorem Rep_split {st st' : Nat → Bool} {P : Nat → Prop} {f t : Nat} (hR : Rep st P)
    (hA : Anti P) (hf : st f = false) (hb : f = 0 ∨ st (buddy_of f) = true)
    (hst : ∀ x, st' x = true ↔ st x = true ∨ x = f ∨ ∃ s, 1 ≤ s ∧ s ≤ t ∧ x = LEFT^[s] f) :
    Rep st' (fun n => P n ∨ n = LEFT^[t] f) ∧ Anti (fun n => P n ∨ n = LEFT^[t] f) := by
  have hnoP : ∀ n, P n → ¬ anc f n := by
    intro n hn han
    have := (hR f).mpr ⟨n, hn, han⟩
    rw [hf] at this; exact Bool.false_ne_true this
  have habove : ∀ x, anc x f → x ≠ f → st x = true := by
    intro x hx hne
    rcases hb with h0 | hb
    · subst h0
      exact absurd (Nat.le_antisymm (anc_le hx) (Nat.zero_le _)) hne
    · have h1 := anc_strict hx hne
      exact Rep_above_buddy hR h1.1 hb h1.2
  constructor
  · intro x
    rw [hst x]
    constructor
    · rintro (h | h | ⟨s, h1, h2, h3⟩)
      · obtain ⟨n, hn, han⟩ := (hR x).mp h
        exact ⟨n, Or.inl hn, han⟩
      · exact ⟨_, Or.inr rfl, h ▸ anc_LEFT_iterate t f⟩
      · exact ⟨_, Or.inr rfl, (anc_LEFT_iterate_iff t f x).mpr (Or.inr ⟨s, h1, h2, h3⟩)⟩
    · rintro ⟨n, hn | hn, han⟩
      · exact Or.inl ((hR x).mpr ⟨n, hn, han⟩)
      · subst hn
        rcases (anc_LEFT_iterate_iff t f x).mp han with h | h
        · by_cases hx : x = f
          · exact Or.inr (Or.inl hx)
          · exact Or.inl (habove x h hx)
        · exact Or.inr (Or.inr h)
  · intro n m hn hm hnm
    rcases hn with hn | hn <;> rcases hm with hm | hm
    · exact hA n m hn hm hnm
    · subst hm
      exfalso
      rcases (anc_LEFT_iterate_iff t f n).mp hnm with h | ⟨s, _, _, h3⟩
      · by_cases hx : n = f
        · exact hnoP n hn (hx ▸ anc.refl _)
        · rcases hb with h0 | hb
          · subst h0
            exact hx (Nat.le_antisymm (anc_le h) (Nat.zero_le _))
          · have h1 := anc_strict h hx
            obtain ⟨n', hn', han'⟩ := (hR _).mp hb
            have hpar : anc (PARENT f) (buddy_of f) := by
              have := anc_parent (buddy_pos h1.1)
              rwa [PARENT_buddy h1.1] at this
            have heq := hA n n' hn hn' (anc_trans h1.2 (anc_trans hpar han'))
            subst heq
            have hle1 := anc_le han'
            have hle2 := anc_le h1.2
            rcases buddy_cases f with ⟨h3, h4⟩ | ⟨h3, h4⟩ <;> rw [h4] at hle1 <;>
              simp only [PARENT] at hle2 <;> omega
      · exact hnoP n hn (h3 ▸ anc_LEFT_iterate s f)
    · subst hn
      exact absurd (anc_trans (anc_LEFT_iterate t f) hnm) (hnoP m hm)
    · rw [hn, hm]


/-! ## The coalescing loop of `virtual_free` -/

theorem free_merge_fields (fuel : Nat) : ∀ (heap : heap_t) (blk : Nat),
    (free_merge fuel heap blk).initial_size = heap.initial_size ∧
    (free_merge fuel heap blk).min_size = heap.min_size ∧
    (free_merge fuel heap blk).num_blocks = heap.num_blocks ∧
    (free_merge fuel heap blk).start = heap.start ∧
    (free_merge fuel heap blk).cur_break = heap.cur_break ∧
    (free_merge fuel heap blk).allow_shrink = heap.allow_shrink ∧
    (free_merge fuel heap blk).temp_break = heap.temp_break ∧
    ((free_merge fuel heap blk).last_used_block = heap.last_used_block ∨
      (free_merge fuel heap blk).last_used_block < blk) := by
  induction fuel with
  | zero => intro heap blk; simp [free_merge]
  | succ fuel ih =>
    intro heap blk
    simp only [free_merge]
    by_cases hpos : blk > 0
    · have hpar : PARENT blk < blk := by simp only [PARENT]; omega
      simp only [hpos, if_true]
      have hbud : (if block_is_left blk = true then blk + 1 else blk - 1) = buddy_of blk := rfl
      rw [hbud]
      generalize hh1 : (if blk = heap.last_used_block then
        ({ heap with last_used_block := PARENT blk } : heap_t) else heap) = heap1
      have hf : heap1.initial_size = heap.initial_size ∧ heap1.min_size = heap.min_size ∧
          heap1.num_blocks = heap.num_blocks ∧ heap1.start = heap.start ∧
          heap1.cur_break = heap.cur_break ∧ heap1.allow_shrink = heap.allow_shrink ∧
          heap1.temp_break = heap.temp_break ∧
          (heap1.last_used_block = heap.last_used_block ∨ heap1.last_used_block < blk) := by
        rw [← hh1]
        by_cases hL : blk = heap.last_used_block
        · rw [if_pos hL]
          exact ⟨rfl, rfl, rfl, rfl, rfl, rfl, rfl, Or.inr hpar⟩
        · rw [if_neg hL]
          exact ⟨rfl, rfl, rfl, rfl, rfl, rfl, rfl, Or.inl rfl⟩
      obtain ⟨f1, f2, f3, f4, f5, f6, f7, f8⟩ := hf
      by_cases hb : block_status heap1 (buddy_of blk) = false
      · rw [if_pos hb]
        obtain ⟨h1, h2, h3, h4, h5, h6, h7, h8⟩ := ih (block_free heap1 (PARENT blk)) (PARENT blk)
        refine ⟨h1.trans f1, h2.trans f2, h3.trans f3, h4.trans f4, h5.trans f5, h6.trans f6,
          h7.trans f7, ?_⟩
        rcases h8 with h8 | h8
        · rcases f8 with f8 | f8
          · exact Or.inl (h8.trans f8)
          · exact Or.inr (lt_of_eq_of_lt h8 f8)
        · exact Or.inr (by omega)
      · rw [if_neg hb]
        exact ⟨f1, f2, f3, f4, f5, f6, f7, f8⟩
    · simp [hpos]

theorem free_merge_spec (P : Nat → Prop) (N : Nat) (fuel : Nat) : ∀ (heap : heap_t) (blk : Nat),
    blk ≤ fuel →
    (∀ i, heap.status i = true ↔ (∃ n, P n ∧ anc i n) ∨ (anc i blk ∧ i ≠ blk)) →
    (∀ n, P n → ¬ anc blk n) → (∀ n, P n → ¬ anc n blk) →
    (heap.last_used_block = N ∨ heap.status heap.last_used_block = true ∨
      heap.last_used_block = blk) →
    Rep (free_merge fuel heap blk).status P ∧
    ((free_merge fuel heap blk).last_used_block = N ∨
      (free_merge fuel heap blk).status (free_merge fuel heap blk).last_used_block = true ∨
      (free_merge fuel heap blk).last_used_block = 0) := by
  induction fuel with
  | zero =>
    intro heap blk hf hJ _ _ hQ
    have h0 : blk = 0 := by omega
    subst h0
    simp only [free_merge]
    refine ⟨?_, hQ⟩
    intro i
    rw [hJ i]
    constructor
    · rintro (h | ⟨h1, h2⟩)
      · exact h
      · exact absurd (Nat.le_antisymm (anc_le h1) (Nat.zero_le _)) h2
    · intro h; exact Or.inl h
  | succ fuel ih =>
    intro heap blk hf hJ hbelow habove hQ
    simp only [free_merge]
    by_cases hpos : blk > 0
    · simp only [hpos, if_true]
      have hpar : PARENT blk < blk := by simp only [PARENT]; omega
      have hbud : (if block_is_left blk = true then blk + 1 else blk - 1) = buddy_of blk := rfl
      rw [hbud]
      -- the heap after the update of `last_used_block`
      generalize hh1 : (if blk = heap.last_used_block then
        ({ heap with last_used_block := PARENT blk } : heap_t) else heap) = heap1
      have hst1 : heap1.status = heap.status := by
        rw [← hh1]; split <;> rfl
      have hL1 : heap1.last_used_block = N ∨ heap1.status heap1.last_used_block = true ∨
          heap1.last_used_block = PARENT blk := by
        rw [← hh1]
        by_cases hL : blk = heap.last_used_block
        · rw [if_pos hL]; exact Or.inr (Or.inr rfl)
        · rw [if_neg hL]
          rcases hQ with h | h | h
          · exact Or.inl h
          · exact Or.inr (Or.inl h)
          · exact absurd h.symm hL
      have hparset : heap.status (PARENT blk) = true :=
        (hJ _).mpr (Or.inr ⟨anc_parent hpos, by omega⟩)
      by_cases hb : block_status heap1 (buddy_of blk) = false
      · rw [if_pos hb]
        have hb' : heap.status (buddy_of blk) = false := by
          simpa [block_status, hst1] using hb
        apply ih _ _ (by omega)
        · intro i
          simp only [block_free, hst1]
          by_cases hi : i = PARENT blk
          · subst hi
            simp only [if_true, Bool.false_eq_true, false_iff, not_or, not_exists, not_and,
              ne_eq, not_true_eq_false, and_false, not_false_eq_true, and_true]
            intro n hn han
            rcases anc_parent_cases hpos han with h | h | h
            · exact habove n hn (h ▸ anc_parent hpos)
            · exact hbelow n hn h
            · have := (hJ (buddy_of blk)).mpr (Or.inl ⟨n, hn, h⟩)
              rw [hb'] at this; exact Bool.false_ne_true this
          · simp only [hi, if_false]
            rw [hJ i]
            constructor
            · rintro (h | ⟨h1, h2⟩)
              · exact Or.inl h
              · exact Or.inr ⟨(anc_strict h1 h2).2, hi⟩
            · rintro (h | ⟨h1, _⟩)
              · exact Or.inl h
              · refine Or.inr ⟨anc_trans h1 (anc_parent hpos), ?_⟩
                intro hib
                subst hib
                have := anc_le h1
                omega
        · intro n hn han
          rcases anc_parent_cases hpos han with h | h | h
          · exact habove n hn (h ▸ anc_parent hpos)
          · exact hbelow n hn h
          · have := (hJ (buddy_of blk)).mpr (Or.inl ⟨n, hn, h⟩)
            rw [hb'] at this; exact Bool.false_ne_true this
        · intro n hn han
          exact habove n hn (anc_trans han (anc_parent hpos))
        · simp only [block_free]
          rcases hL1 with h | h | h
          · exact Or.inl h
          · by_cases hi : heap1.last_used_block = PARENT blk
            · exact Or.inr (Or.inr hi)
            · exact Or.inr (Or.inl (by simp only [hi, if_false]; exact h))
          · exact Or.inr (Or.inr h)
      · rw [if_neg hb]
        have hb' : heap.status (buddy_of blk) = true := by
          simpa [block_status, hst1] using hb
        have hbl : ∃ n, P n ∧ anc (buddy_of blk) n := by
          rcases (hJ _).mp hb' with h | ⟨h1, _⟩
          · exact h
          · exact absurd h1 (not_anc_buddy hpos)
        constructor
        · intro i
          rw [hst1, hJ i]
          constructor
          · rintro (h | ⟨h1, h2⟩)
            · exact h
            · obtain ⟨n, hn, han⟩ := hbl
              refine ⟨n, hn, anc_trans (anc_strict h1 h2).2 (anc_trans ?_ han)⟩
              have := anc_parent (buddy_pos hpos)
              rwa [PARENT_buddy hpos] at this
          · intro h; exact Or.inl h
        · rcases hL1 with h | h | h
          · exact Or.inl h
          · exact Or.inr (Or.inl h)
          · right; left
            rw [h, hst1]; exact hparset
    · have h0 : blk = 0 := by omega
      subst h0
      simp only [hpos, if_false]
      refine ⟨?_, hQ⟩
      intro i
      rw [hJ i]
      constructor
      · rintro (h | ⟨h1, h2⟩)
        · exact h
        · exact absurd (Nat.le_antisymm (anc_le h1) (Nat.zero_le _)) h2
      · intro h; exact Or.inl h


/-! ## The last used block during coalescing, and the end of a block -/

theorem free_merge_clears (fuel : Nat) : ∀ (heap : heap_t) (blk x : Nat),
    (free_merge fuel heap blk).status x = true → heap.status x = true := by
  induction fuel with
  | zero => intro heap blk x h; exact h
  | succ fuel ih =>
    intro heap blk x
    simp only [free_merge]
    by_cases hpos : blk > 0
    · simp only [hpos, if_true]
      generalize hh1 : (if blk = heap.last_used_block then
        ({ heap with last_used_block := PARENT blk } : heap_t) else heap) = heap1
      have hst : heap1.status = heap.status := by
        rw [← hh1]; split <;> rfl
      have hbud : (if block_is_left blk = true then blk + 1 else blk - 1) = buddy_of blk := rfl
      rw [hbud]
      by_cases hb : block_status heap1 (buddy_of blk) = false
      · rw [if_pos hb]
        intro h
        have h2 := ih _ _ x h
        simp only [block_free] at h2
        rw [← hst]
        by_cases hx : x = PARENT blk
        · rw [if_pos hx] at h2; exact absurd h2 Bool.false_ne_true
        · rw [if_neg hx] at h2; exact h2
      · rw [if_neg hb]
        intro h; rw [← hst]; exact h
    · simp only [hpos, if_false]; exact fun h => h

/-- The coalescing loop leaves `last_used_block` as it is, unless the loop
visits it: then `last_used_block` is the block being freed or lies above it,
its bit is clear afterwards, and the new value lies above the old one. -/
theorem free_merge_last (fuel : Nat) : ∀ (heap : heap_t) (blk : Nat),
    heap.status blk = false →
    (free_merge fuel heap blk).last_used_block = heap.last_used_block ∨
    ((free_merge fuel heap blk).status heap.last_used_block = false ∧
      anc heap.last_used_block blk ∧
      anc (free_merge fuel heap blk).last_used_block heap.last_used_block) := by
  induction fuel with
  | zero => intro heap blk _; exact Or.inl rfl
  | succ fuel ih =>
    intro heap blk hclr
    simp only [free_merge]
    by_cases hpos : blk > 0
    · simp only [hpos, if_true]
      have hbud : (if block_is_left blk = true then blk + 1 else blk - 1) = buddy_of blk := rfl
      rw [hbud]
      by_cases hL : blk = heap.last_used_block
      · rw [if_pos hL]
        by_cases hb : block_status ({ heap with last_used_block := PARENT blk } : heap_t)
            (buddy_of blk) = false
        · rw [if_pos hb]
          right
          have hc2 : (block_free { heap with last_used_block := PARENT blk }
              (PARENT blk)).status (PARENT blk) = false := by
            simp only [block_free, if_true]
          have hnot : (free_merge fuel (block_free { heap with last_used_block := PARENT blk }
              (PARENT blk)) (PARENT blk)).status blk = false := by
            cases hs : (free_merge fuel (block_free { heap with last_used_block := PARENT blk }
              (PARENT blk)) (PARENT blk)).status blk with
            | false => rfl
            | true =>
              have h2 := free_merge_clears fuel _ _ blk hs
              simp only [block_free] at h2
              have hne : blk ≠ PARENT blk := by simp only [PARENT]; omega
              rw [if_neg hne, hclr] at h2
              exact absurd h2 Bool.false_ne_true
          refine ⟨hL ▸ hnot, hL ▸ anc.refl _, ?_⟩
          rcases ih _ _ hc2 with h | ⟨_, _, h⟩
          · rw [h]; exact hL ▸ anc_parent hpos
          · exact anc_trans h (hL ▸ anc_parent hpos)
        · rw [if_neg hb]
          right
          exact ⟨hL ▸ hclr, hL ▸ anc.refl _, hL ▸ anc_parent hpos⟩
      · rw [if_neg hL]
        by_cases hb : block_status heap (buddy_of blk) = false
        · rw [if_pos hb]
          have hc2 : (block_free heap (PARENT blk)).status (PARENT blk) = false := by
            simp only [block_free, if_true]
          rcases ih _ _ hc2 with h | ⟨h1, h2, h3⟩
          · exact Or.inl h
          · exact Or.inr ⟨h1, anc.up hpos h2, h3⟩
        · rw [if_neg hb]
          exact Or.inl rfl
    · rw [if_neg hpos]; exact Or.inl rfl

theorem block_end_congr {h1 h2 : heap_t} (hK : h1.initial_size = h2.initial_size)
    (hS : h1.start = h2.start) (n : Nat) : block_end h1 n = block_end h2 n := by
  simp only [block_end, block_to_ptr, block_sz, hK, hS]

theorem block_end_node (heap : heap_t) {d j : Nat} (hj : j < 2 ^ d)
    (hd : d ≤ heap.initial_size) (hK : heap.initial_size < 32) :
    block_end heap (node d j) = heap.start + (j + 1) * 2 ^ (heap.initial_size - d) := by
  simp only [block_end]
  rw [block_to_ptr_node heap hj hd hK, block_sz_node heap hj hd (by omega), shl32_eq (by omega),
    Nat.add_mul, Nat.one_mul, Nat.add_assoc]

/-- The end of a block is not above the end of a block that contains it. -/
theorem block_end_anc (heap : heap_t) (hK : heap.initial_size < 32) {i n : Nat} (h : anc i n)
    (hn : n < 2 ^ (heap.initial_size + 1) - 1) : block_end heap n ≤ block_end heap i := by
  induction h with
  | refl => exact Nat.le_refl _
  | @up n hpos _ ih =>
    have hpar : PARENT n ≤ n := by simp only [PARENT]; omega
    refine Nat.le_trans ?_ (ih (Nat.lt_of_le_of_lt hpar hn))
    obtain ⟨d, j, hj, rfl⟩ := exists_node n
    have hdK : d ≤ heap.initial_size := (node_lt_iff hj).mp hn
    obtain ⟨d0, rfl⟩ : ∃ d0, d = d0 + 1 := by
      refine ⟨d - 1, ?_⟩
      rcases Nat.eq_zero_or_pos d with h0 | h0
      · subst h0
        have : j = 0 := by simpa using hj
        subst this
        rw [node_zero] at hpos; exact absurd hpos (lt_irrefl 0)
      · omega
    have hj2 : j / 2 < 2 ^ d0 := by
      rw [pow_succ] at hj; omega
    rw [PARENT_node, block_end_node heap hj hdK hK,
      block_end_node heap hj2 (by omega) hK]
    have hpow : 2 ^ (heap.initial_size - d0) = 2 * 2 ^ (heap.initial_size - (d0 + 1)) := by
      rw [← pow_succ']; congr 1; omega
    rw [hpow, ← Nat.mul_assoc]
    exact Nat.add_le_add_left (Nat.mul_le_mul_right _ (by omega)) _

/-! ## Resolution of an address by `ptr_to_block` -/

theorem ptr_to_block_descend_spec (K d j : Nat) (fuel : Nat) : ∀ (e i offset : Nat),
    e ≤ d → d ≤ K → offset + i * 2 ^ (K - e) = j * 2 ^ (K - d) → offset < 2 ^ (K - e) →
    d - e < fuel →
    ∃ e1 i1, ptr_to_block_descend fuel (node e i) (2 ^ (K - e)) offset = node e1 i1 ∧
      e ≤ e1 ∧ e1 ≤ d ∧ j = i1 * 2 ^ (d - e1) := by
  induction fuel with
  | zero => intro e i offset _ _ _ _ hf; omega
  | succ fuel ih =>
    intro e i offset hed hdK heq hlt hf
    have hsplit : 2 ^ (K - e) = 2 ^ (K - d) * 2 ^ (d - e) := by
      rw [← pow_add]; congr 1; omega
    by_cases h0 : offset = 0
    · subst h0
      refine ⟨e, i, by simp [ptr_to_block_descend], le_refl _, hed, ?_⟩
      have hpos := two_pow_pos_nat (K - d)
      rw [hsplit, Nat.zero_add, mul_comm (2 ^ (K - d)), ← mul_assoc] at heq
      exact (Nat.eq_of_mul_eq_mul_right hpos heq).symm
    · have hpos : offset > 0 := Nat.pos_of_ne_zero h0
      have hsz := two_pow_pos_nat (K - e)
      have hed' : e < d := by
        rcases Nat.lt_or_ge e d with h | h
        · exact h
        · exfalso
          have hde : d = e := by omega
          subst hde
          have h1 : i * 2 ^ (K - d) < j * 2 ^ (K - d) := by omega
          have h2 : i < j := Nat.lt_of_mul_lt_mul_right h1
          have h3 : (i + 1) * 2 ^ (K - d) ≤ j * 2 ^ (K - d) :=
            Nat.mul_le_mul_right _ h2
          rw [Nat.add_mul, Nat.one_mul] at h3
          omega
      have hhalf : 2 ^ (K - e) = 2 * 2 ^ (K - (e + 1)) := by
        rw [← pow_succ']; congr 1; omega
      have hdiv : 2 ^ (K - e) / 2 = 2 ^ (K - (e + 1)) := by rw [hhalf]; omega
      simp only [ptr_to_block_descend, hpos, hsz, and_self, if_true, hdiv]
      by_cases hge : offset ≥ 2 ^ (K - (e + 1))
      · simp only [hge, if_true, RIGHT_node]
        obtain ⟨e1, i1, h1, h2, h3, h4⟩ :=
          ih (e + 1) (2 * i + 1) (offset - 2 ^ (K - (e + 1))) hed' hdK
            (by rw [← heq, hhalf]; have : (2 * i + 1) * 2 ^ (K - (e + 1))
                  = i * (2 * 2 ^ (K - (e + 1))) + 2 ^ (K - (e + 1)) := by ring
                omega)
            (by omega) (by omega)
        exact ⟨e1, i1, h1, by omega, h3, h4⟩
      · simp only [hge, if_false, LEFT_node]
        obtain ⟨e1, i1, h1, h2, h3, h4⟩ :=
          ih (e + 1) (2 * i) offset hed' hdK
            (by rw [← heq, hhalf]; have : (2 * i) * 2 ^ (K - (e + 1))
                  = i * (2 * 2 ^ (K - (e + 1))) := by ring
                omega)
            (by omega) (by omega)
        exact ⟨e1, i1, h1, by omega, h3, h4⟩

theorem ptr_to_block_spine_spec (heap : heap_t) (t : Nat) : ∀ (fuel blk : Nat), t < fuel →
    (∀ s, 1 ≤ s → s ≤ t →
      LEFT^[s] blk < heap.num_blocks ∧ heap.status (LEFT^[s] blk) = true) →
    (LEFT (LEFT^[t] blk) < heap.num_blocks → heap.status (LEFT (LEFT^[t] blk)) = false) →
    ptr_to_block_spine fuel heap blk = LEFT^[t] blk := by
  induction t with
  | zero =>
    intro fuel blk hf _ hclear
    cases fuel with
    | zero => omega
    | succ fuel =>
      simp only [Function.iterate_zero, id_eq] at hclear ⊢
      simp only [ptr_to_block_spine, block_status]
      rw [if_neg]
      rintro ⟨h1, h2⟩
      rw [hclear h1] at h2
      exact Bool.false_ne_true h2
  | succ t ih =>
    intro fuel blk hf hset hclear
    cases fuel with
    | zero => omega
    | succ fuel =>
      have h1 := hset 1 (le_refl _) (by omega)
      simp only [Function.iterate_one] at h1
      simp only [ptr_to_block_spine, block_status]
      rw [if_pos h1, Function.iterate_succ_apply]
      apply ih fuel (LEFT blk) (by omega)
      · intro s hs1 hs2
        have := hset (s + 1) (by omega) (by omega)
        rwa [Function.iterate_succ_apply] at this
      · rwa [Function.iterate_succ_apply] at hclear


theorem ptr_to_block_node (heap : heap_t) {K M d j : Nat} (hK : heap.initial_size = K)
    (hM : heap.min_size = M) (hN : heap.num_blocks = 2 ^ (K - M + 1) - 1) (hK32 : K < 32)
    (hj : j < 2 ^ d) (hd : d + M ≤ K)
    (hset : ∀ x, anc x (node d j) → heap.status x = true)
    (hclear : LEFT (node d j) < heap.num_blocks → heap.status (LEFT (node d j)) = false) :
    ptr_to_block heap (heap.start + j * 2 ^ (K - d)) = node d j := by
  have hKd : 2 ^ K = 2 ^ d * 2 ^ (K - d) := by rw [← pow_add]; congr 1; omega
  have hoff : j * 2 ^ (K - d) < 2 ^ K := by
    rw [hKd]; exact Nat.mul_lt_mul_of_pos_right hj (two_pow_pos_nat _)
  have h32 : 2 ^ K < 2 ^ 32 := Nat.pow_lt_pow_right (by decide) hK32
  have hmod : (heap.start + j * 2 ^ (K - d) - heap.start) % 2 ^ 32 = j * 2 ^ (K - d) := by
    rw [Nat.add_sub_cancel_left]; exact Nat.mod_eq_of_lt (by omega)
  have hal : j * 2 ^ (K - d) % 2 ^ M = 0 := by
    have : 2 ^ (K - d) = 2 ^ (K - d - M) * 2 ^ M := by rw [← pow_add]; congr 1; omega
    rw [this, ← mul_assoc]; exact Nat.mul_mod_left _ _
  obtain ⟨e1, i1, h1, _, h3, h4⟩ :=
    ptr_to_block_descend_spec K d j (K + 1) 0 0 (j * 2 ^ (K - d)) (Nat.zero_le _) (by omega)
      (by simp) (by simpa using hoff) (by omega)
  rw [node_zero, Nat.sub_zero] at h1
  have hnode : node d j = LEFT^[d - e1] (node e1 i1) := by
    rw [LEFT_iterate_node, h4]; congr 1; omega
  have hlt : node d j < heap.num_blocks := by
    rw [hN]; exact (node_lt_iff hj).mpr (by omega)
  simp only [ptr_to_block, hmod, hK, hM, hal, shl32_eq hK32, h1]
  rw [if_neg (by omega), if_neg (by simp; omega)]
  rw [hnode] at hset hclear hlt ⊢
  apply ptr_to_block_spine_spec heap (d - e1) heap.num_blocks (node e1 i1)
  · have : K - M + 1 < 2 ^ (K - M + 1) := Nat.lt_two_pow _
    omega
  · intro s hs1 hs2
    have ha : anc (LEFT^[s] (node e1 i1)) (LEFT^[d - e1] (node e1 i1)) :=
      (anc_LEFT_iterate_iff _ _ _).mpr (Or.inr ⟨s, hs1, hs2, rfl⟩)
    exact ⟨Nat.lt_of_le_of_lt (anc_le ha) hlt, hset _ ha⟩
  · exact hclear

/-! ## The search of `find_fit` -/

theorem find_fit_scan_some (heap : heap_t) (last : Nat) (fuel : Nat) : ∀ (i b : Nat),
    find_fit_scan fuel heap i last = some b →
    ∃ k, i + 2 * k < last ∧ heap.status (i + 2 * k) ≠ heap.status (i + 2 * k + 1) ∧
      b = (if heap.status (i + 2 * k) = false then i + 2 * k else i + 2 * k + 1) ∧
      ∀ k1, k1 < k → heap.status (i + 2 * k1) = heap.status (i + 2 * k1 + 1) := by
  induction fuel with
  | zero => intro i b h; simp [find_fit_scan] at h
  | succ fuel ih =>
    intro i b h
    simp only [find_fit_scan, block_status] at h
    by_cases hi : i < last
    · rw [if_pos hi] at h
      by_cases hne : (heap.status i != heap.status (i + 1)) = true
      · rw [if_pos hne] at h
        refine ⟨0, by simpa using hi, by simpa using hne, by simpa using (Option.some.inj h).symm,
          ?_⟩
        intro k1 hk1; omega
      · rw [if_neg hne] at h
        obtain ⟨k, h1, h2, h3, h4⟩ := ih (i + 2) b h
        refine ⟨k + 1, by omega, ?_, ?_, ?_⟩
        · rw [show i + 2 * (k + 1) = i + 2 + 2 * k by ring]; exact h2
        · rw [show i + 2 * (k + 1) = i + 2 + 2 * k by ring]; exact h3
        · intro k1 hk1
          rcases Nat.eq_zero_or_pos k1 with h0 | h0
          · subst h0; simpa using hne
          · have := h4 (k1 - 1) (by omega)
            rw [show i + 2 + 2 * (k1 - 1) = i + 2 * k1 by omega] at this
            exact this
    · rw [if_neg hi] at h; exact absurd h (by simp)

theorem find_fit_scan_none (heap : heap_t) (last : Nat) (fuel : Nat) : ∀ (i : Nat),
    find_fit_scan fuel heap i last = none → last - i ≤ fuel →
    ∀ k, i + 2 * k < last → heap.status (i + 2 * k) = heap.status (i + 2 * k + 1) := by
  induction fuel with
  | zero => intro i _ hf k hk; omega
  | succ fuel ih =>
    intro i h hf k hk
    simp only [find_fit_scan, block_status] at h
    have hi : i < last := by omega
    rw [if_pos hi] at h
    by_cases hne : (heap.status i != heap.status (i + 1)) = true
    · rw [if_pos hne] at h; exact absurd h (by simp)
    · rw [if_neg hne] at h
      rcases Nat.eq_zero_or_pos k with h0 | h0
      · subst h0; simpa using hne
      · have := ih (i + 2) h (by omega) (k - 1) (by omega)
        rw [show i + 2 + 2 * (k - 1) = i + 2 * k by omega] at this
        exact this


theorem find_fit_rec_spec (heap : heap_t) {K M : Nat} (hK : heap.initial_size = K)
    (hN : heap.num_blocks = 2 ^ (K - M + 1) - 1) (fuel : Nat) : ∀ (sz : Nat),
    M ≤ sz → sz ≤ K → K - sz < fuel →
    ∃ f, find_fit_rec fuel heap sz = some f ∧ find_fit_spec heap K sz f := by
  induction fuel with
  | zero => intro sz _ _ hf; omega
  | succ fuel ih =>
    intro sz hM hsz hf
    have hp := two_pow_pos_nat (K - sz)
    have hassert : 2 * (2 ^ (K - sz) - 1) < 2 ^ (K - M + 1) - 1 := by
      have : 2 ^ (K - sz) ≤ 2 ^ (K - M) := Nat.pow_le_pow_right (by decide) (by omega)
      rw [pow_succ]; omega
    have hfirst : ∀ k, 2 ^ (K - sz) - 1 + 2 * k = node (K - sz) (2 * k) := fun k => rfl
    have hsecond : ∀ k, 2 ^ (K - sz) - 1 + 2 * k + 1 = node (K - sz) (2 * k + 1) := fun k => rfl
    simp only [find_fit_rec, hK, hN, if_pos hassert]
    cases hscan : find_fit_scan (2 * (2 ^ (K - sz) - 1) - (2 ^ (K - sz) - 1)) heap
        (2 ^ (K - sz) - 1) (2 * (2 ^ (K - sz) - 1)) with
    | some b =>
      obtain ⟨k, h1, h2, h3, h4⟩ := find_fit_scan_some heap _ _ _ _ hscan
      refine ⟨b, rfl, Or.inr ⟨K - sz, k, ?_, by omega, by omega, ?_, ?_, ?_, ?_⟩⟩
      · rcases Nat.eq_zero_or_pos (K - sz) with h0 | h0
        · rw [h0] at h1; simp at h1
        · exact h0
      · simpa only [pair_eq, hfirst, hsecond] using h2
      · simpa only [free_of_pair, hfirst, hsecond] using h3
      · intro k1 hk1
        simpa only [pair_eq, hfirst, hsecond] using h4 k1 hk1
      · intro d1 k1 h5 h6 _; omega
    | none =>
      have hnone := find_fit_scan_none heap _ _ _ hscan (le_refl _)
      have hlevel : ∀ k, 2 * k + 1 < 2 ^ (K - sz) → pair_eq heap (K - sz) k := by
        intro k hk
        simpa only [pair_eq, hfirst, hsecond] using hnone k (by omega)
      by_cases hlt : sz < K
      · simp only [if_pos hlt]
        obtain ⟨f, hf1, hf2⟩ := ih (sz + 1) (by omega) (by omega) (by omega)
        refine ⟨f, hf1, ?_⟩
        rcases hf2 with ⟨h0, hall⟩ | ⟨d, k, h1, h2, h3, h4, h5, h6, h7⟩
        · left
          refine ⟨h0, ?_⟩
          intro d k hd1 hd2 hk
          by_cases hd : d = K - sz
          · subst hd; exact hlevel k hk
          · exact hall d k hd1 (by omega) hk
        · right
          refine ⟨d, k, h1, by omega, h3, h4, h5, h6, ?_⟩
          intro d1 k1 hd1 hd2 hk
          by_cases hd : d1 = K - sz
          · subst hd; exact hlevel k1 hk
          · exact h7 d1 k1 hd1 (by omega) hk
      · simp only [if_neg hlt]
        refine ⟨0, rfl, Or.inl ⟨rfl, ?_⟩⟩
        intro d k hd1 hd2 _; omega

theorem find_fit_eq (heap : heap_t) {K M sz : Nat} (hK : heap.initial_size = K)
    (hN : heap.num_blocks = 2 ^ (K - M + 1) - 1) (hM : M ≤ sz) (hsz : sz ≤ K) :
    ∃ f, find_fit heap sz = some f ∧ find_fit_spec heap K sz f := by
  simp only [find_fit, hK]
  exact find_fit_rec_spec heap hK hN _ sz hM hsz (by omega)


/-! ## Geometry of the blocks -/

theorem anc_node_div (d j : Nat) (t : Nat) : anc (node d (j / 2 ^ t)) (node (d + t) j) := by
  induction t generalizing j with
  | zero => simp only [pow_zero, Nat.div_one, Nat.add_zero]; exact anc.refl _
  | succ t ih =>
    have h := ih (j / 2)
    rw [Nat.div_div_eq_div_mul, ← pow_succ'] at h
    have hp : PARENT (node (d + t + 1) j) = node (d + t) (j / 2) := PARENT_node _ _
    exact anc.up (node_succ_pos _ _) (hp ▸ h)

theorem anc_node_iff {d j d1 j1 : Nat} (hj : j < 2 ^ d) (hj1 : j1 < 2 ^ d1) :
    anc (node d j) (node d1 j1) ↔ d ≤ d1 ∧ j = j1 / 2 ^ (d1 - d) := by
  constructor
  · intro h
    generalize hn : node d1 j1 = n at h
    induction h generalizing d1 j1 with
    | refl =>
      obtain ⟨h1, h2⟩ := node_inj hj1 hj hn
      subst h1; subst h2
      simp
    | @up n hpos h' ih =>
      cases d1 with
      | zero =>
        have : j1 = 0 := by simpa using hj1
        subst this
        rw [node_zero] at hn; omega
      | succ d1 =>
        have hj2 : j1 / 2 < 2 ^ d1 := by simp only [pow_succ] at hj1; omega
        have := ih hj2 (by rw [← hn, PARENT_node])
        refine ⟨by omega, ?_⟩
        rw [this.2, Nat.div_div_eq_div_mul, ← pow_succ']
        congr 2; omega
  · rintro ⟨h1, h2⟩
    have := anc_node_div d j1 (d1 - d)
    rw [← h2] at this
    rwa [show d + (d1 - d) = d1 by omega] at this

theorem occupies_fun {K M S : Nat} {a : Nat × Nat} {n m : Nat} (h1 : occupies K M S a n)
    (h2 : occupies K M S a m) : n = m := by
  obtain ⟨d, j, _, _, hd, hp, hn⟩ := h1
  obtain ⟨d', j', _, _, hd', hp', hm⟩ := h2
  have hdd : d = d' := by omega
  subst hdd
  have : j * 2 ^ a.2 = j' * 2 ^ a.2 := by omega
  have := Nat.eq_of_mul_eq_mul_right (two_pow_pos_nat _) this
  subst this
  rw [hn, hm]

theorem occupies_inj {K M S : Nat} {a b : Nat × Nat} {n : Nat} (h1 : occupies K M S a n)
    (h2 : occupies K M S b n) : a = b := by
  obtain ⟨d, j, hj, _, hd, hp, hn⟩ := h1
  obtain ⟨d', j', hj', _, hd', hp', hm⟩ := h2
  obtain ⟨h3, h4⟩ := node_inj hj hj' (hn.symm.trans hm)
  subst h3; subst h4
  have h5 : a.2 = b.2 := by omega
  have h6 : a.1 = b.1 := by rw [hp, hp', h5]
  exact Prod.ext h6 h5

theorem occupies_lt {K M S : Nat} {a : Nat × Nat} {n : Nat} (h : occupies K M S a n) :
    n < 2 ^ (K - M + 1) - 1 := by
  obtain ⟨d, j, hj, hd, _, _, hn⟩ := h
  rw [hn]; exact (node_lt_iff hj).mpr (by omega)

/-- Two allocations that start at the same address occupy blocks of one left
spine. -/
theorem occupies_same_ptr {K M S : Nat} {a b : Nat × Nat} {n m : Nat}
    (h1 : occupies K M S a n) (h2 : occupies K M S b m) (hp : a.1 = b.1) :
    anc n m ∨ anc m n := by
  obtain ⟨d, j, hj, _, hd, hpa, hn⟩ := h1
  obtain ⟨d', j', hj', _, hd', hpb, hm⟩ := h2
  have key : ∀ {d j d' j' r r' : Nat}, j < 2 ^ d → j' < 2 ^ d' → r + d = K → r' + d' = K →
      j * 2 ^ r = j' * 2 ^ r' → d ≤ d' → anc (node d j) (node d' j') := by
    intro d j d' j' r r' hj hj' hd hd' he hle
    rw [anc_node_iff hj hj']
    refine ⟨hle, ?_⟩
    have hr : 2 ^ r = 2 ^ (d' - d) * 2 ^ r' := by rw [← pow_add]; congr 1; omega
    rw [hr, ← mul_assoc] at he
    have := Nat.eq_of_mul_eq_mul_right (two_pow_pos_nat _) he
    rw [← this, Nat.mul_div_cancel _ (two_pow_pos_nat _)]
  have he : j * 2 ^ a.2 = j' * 2 ^ b.2 := by omega
  rw [hn, hm]
  rcases Nat.le_total d d' with h | h
  · exact Or.inl (key hj hj' hd hd' he h)
  · exact Or.inr (key hj' hj hd' hd he.symm h)

theorem Rep_congr {st : Nat → Bool} {P Q : Nat → Prop} (h : ∀ n, P n ↔ Q n) (hR : Rep st P) :
    Rep st Q := by
  intro i
  rw [hR i]
  constructor
  · rintro ⟨n, hn, ha⟩; exact ⟨n, (h n).mp hn, ha⟩
  · rintro ⟨n, hn, ha⟩; exact ⟨n, (h n).mpr hn, ha⟩

theorem Anti_congr {P Q : Nat → Prop} (h : ∀ n, P n ↔ Q n) (hA : Anti P) : Anti Q :=
  fun n m hn hm ha => hA n m ((h n).mpr hn) ((h m).mpr hm) ha

theorem live_nodes_cons (K M S : Nat) (a : Nat × Nat) (live : List (Nat × Nat)) (n : Nat) :
    live_nodes K M S (a :: live) n ↔ live_nodes K M S live n ∨ occupies K M S a n := by
  simp only [live_nodes, List.mem_cons]
  constructor
  · rintro ⟨x, hx | hx, ho⟩
    · exact Or.inr (hx ▸ ho)
    · exact Or.inl ⟨x, hx, ho⟩
  · rintro (⟨x, hx, ho⟩ | ho)
    · exact ⟨x, Or.inr hx, ho⟩
    · exact ⟨a, Or.inl rfl, ho⟩

theorem mem_drop_live {live : List (Nat × Nat)} {p : Nat} {x : Nat × Nat} :
    x ∈ drop_live live p ↔ x ∈ live ∧ x.1 ≠ p := by
  simp [drop_live]

theorem live_nodes_drop {K M S : Nat} {live : List (Nat × Nat)} {a : Nat × Nat} {b : Nat}
    (hnd : (live.map Prod.fst).Nodup) (ha : a ∈ live) (hb : occupies K M S a b) (n : Nat) :
    live_nodes K M S (drop_live live a.1) n ↔ live_nodes K M S live n ∧ n ≠ b := by
  simp only [live_nodes, mem_drop_live]
  constructor
  · rintro ⟨x, ⟨hx, hne⟩, ho⟩
    refine ⟨⟨x, hx, ho⟩, ?_⟩
    intro hnb
    subst hnb
    exact hne (by rw [occupies_inj ho hb])
  · rintro ⟨⟨x, hx, ho⟩, hne⟩
    refine ⟨x, ⟨hx, ?_⟩, ho⟩
    intro hp
    have hxa : x = a := List.inj_on_of_nodup_map hnd hx ha hp
    subst hxa
    exact hne (occupies_fun ho hb)

/-! ## The block found by `find_fit` -/

theorem buddy_of_node_even (d k : Nat) : buddy_of (node (d + 1) (2 * k)) = node (d + 1) (2 * k + 1) := by
  have h := block_is_left_node d (2 * k)
  have h2 : (2 * k % 2 == 0) = true := by simp
  rw [h2] at h
  simp only [buddy_of, h, if_true]; rfl

theorem buddy_of_node_odd (d k : Nat) : buddy_of (node (d + 1) (2 * k + 1)) = node (d + 1) (2 * k) := by
  have h := block_is_left_node d (2 * k + 1)
  have h2 : ((2 * k + 1) % 2 == 0) = false := by
    have : (2 * k + 1) % 2 = 1 := by omega
    rw [this]; rfl
  rw [h2] at h
  simp only [buddy_of, h]; rfl

/-- The block that `find_fit` returns, when `virtual_malloc` accepts it, is a
clear block of sufficient order whose sibling is marked, or the clear root. -/
theorem fit_block {heap : heap_t} {K sz f : Nat} (h : find_fit_spec heap K sz f) (hsz : sz ≤ K)
    (hrej : ¬ (f = 0 ∧ heap.status 0 = true)) :
    ∃ d j, f = node d j ∧ j < 2 ^ d ∧ d + sz ≤ K ∧ heap.status f = false ∧
      (f = 0 ∨ heap.status (buddy_of f) = true) := by
  rcases h with ⟨h0, _⟩ | ⟨d, k, h1, h2, h3, h4, h5, _, _⟩
  · subst h0
    refine ⟨0, 0, node_zero.symm, by simp, by omega, ?_, Or.inl rfl⟩
    cases hs : heap.status 0 with
    | false => rfl
    | true => exact absurd ⟨rfl, hs⟩ hrej
  · obtain ⟨d0, hd0⟩ : ∃ d0, d = d0 + 1 := ⟨d - 1, by omega⟩
    subst hd0
    simp only [pair_eq] at h4
    simp only [free_of_pair] at h5
    by_cases hs : heap.status (node (d0 + 1) (2 * k)) = false
    · rw [if_pos hs] at h5
      refine ⟨d0 + 1, 2 * k, h5, by omega, h2, h5 ▸ hs, Or.inr ?_⟩
      rw [h5, buddy_of_node_even]
      cases hs2 : heap.status (node (d0 + 1) (2 * k + 1)) with
      | false => rw [hs, hs2] at h4; exact absurd rfl h4
      | true => rfl
    · rw [if_neg hs] at h5
      have hs' : heap.status (node (d0 + 1) (2 * k)) = true := by
        simpa using hs
      refine ⟨d0 + 1, 2 * k + 1, h5, h3, h2, ?_, Or.inr ?_⟩
      · rw [h5]
        cases hs2 : heap.status (node (d0 + 1) (2 * k + 1)) with
        | false => rfl
        | true => rw [hs', hs2] at h4; exact absurd rfl h4
      · rw [h5, buddy_of_node_odd]; exact hs'

theorem req_order_bounds (heap : heap_t) {K M : Nat}
    (hM : heap.min_size = M) (hMK : M ≤ K) {size : Nat} (hlog : my_log2 size ≤ K) :
    M ≤ req_order heap size ∧ req_order heap size ≤ K := by
  simp only [req_order, hM]
  split <;> omega


/-! ## `block_split` and `virtual_malloc` -/

theorem block_split_eq (heap : heap_t) {K d j sz : Nat} (hK : heap.initial_size = K)
    (hK32 : K < 32) (hj : j < 2 ^ d) (hd : d + sz ≤ K) :
    ∃ heap1, block_split heap (node d j) sz
        = some (heap1, node (K - sz) (j * 2 ^ (K - sz - d))) ∧
      (∀ x, heap1.status x = true ↔ heap.status x = true ∨ x = node d j ∨
        ∃ s, 1 ≤ s ∧ s ≤ K - sz - d ∧ x = LEFT^[s] (node d j)) ∧
      same_header heap heap1 := by
  have hsz : block_sz heap (node d j) = K - d := by
    rw [block_sz_node heap hj (by omega) (by omega), hK]
  obtain ⟨h1, h2, h3, h4, h5, h6, h7, h8, h9, h10⟩ :=
    block_split_loop_spec (K - d) (block_alloc heap (node d j)) (node d j) (K - d) sz (by omega)
  refine ⟨(block_split_loop (K - d) (block_alloc heap (node d j)) (node d j) (K - d) sz).1,
    ?_, ?_, ⟨h3, h4, h5, h6, h7, h8, h9, h10⟩⟩
  · simp only [block_split, hsz]
    rw [if_pos (by omega)]
    congr 1
    apply Prod.ext
    · rfl
    · rw [h1, LEFT_iterate_node]
      simp only
      congr 1
      · omega
      · congr 2; omega
  · intro x
    rw [h2 x]
    have hsub : K - d - sz = K - sz - d := by omega
    rw [hsub]
    simp only [block_alloc]
    by_cases hx : x = node d j
    · simp [hx]
    · simp only [hx, if_false, false_or]

/-- The common part of `virtual_malloc`, up to the test of the break: the block
found by `find_fit` is split, and the state with the new allocation satisfies
the invariant before the break is extended. -/
theorem virtual_malloc_split {K M S : Nat} {s : alloc_state} (hc : Core K M S s) (hMK : M ≤ K)
    (hK32 : K < 32) {size : Nat} (hsz0 : size ≠ 0) (hlog : my_log2 size ≤ K) :
    ∃ f, find_fit_spec s.heap K (req_order s.heap size) f ∧
      ((f = 0 ∧ s.heap.status 0 = true ∧
          ∀ sbrk_ok, virtual_malloc s.heap size sbrk_ok = some (s.heap, 0)) ∨
       (¬ (f = 0 ∧ s.heap.status 0 = true) ∧ ∃ d j heap1, f = node d j ∧ j < 2 ^ d ∧
          d + req_order s.heap size ≤ K ∧ same_header s.heap heap1 ∧
          Core K M S ⟨heap1, (S + j * 2 ^ (K - d), req_order s.heap size) :: s.live⟩ ∧
          heap1.status (node (K - req_order s.heap size)
            (j * 2 ^ (K - req_order s.heap size - d))) = true ∧
          node (K - req_order s.heap size) (j * 2 ^ (K - req_order s.heap size - d))
            < s.heap.num_blocks ∧
          block_end heap1 (node (K - req_order s.heap size)
            (j * 2 ^ (K - req_order s.heap size - d)))
            = S + j * 2 ^ (K - d) + 2 ^ req_order s.heap size ∧
          ∀ sbrk_ok, virtual_malloc s.heap size sbrk_ok = some
            (if heap1.cur_break < S + j * 2 ^ (K - d) + 2 ^ req_order s.heap size then
              (if sbrk_ok = true then
                (({ heap1 with
                    cur_break := S + j * 2 ^ (K - d) + 2 ^ req_order s.heap size,
                    last_used_block := node (K - req_order s.heap size)
                      (j * 2 ^ (K - req_order s.heap size - d)) } : heap_t),
                  S + j * 2 ^ (K - d))
              else ((virtual_free heap1 (S + j * 2 ^ (K - d))).1, 0))
            else (heap1, S + j * 2 ^ (K - d))))) := by
  obtain ⟨hr1, hr2⟩ := req_order_bounds s.heap hc.hM hMK hlog
  generalize hsz : req_order s.heap size = sz at hr1 hr2 ⊢
  obtain ⟨f, hfind, hspec⟩ := find_fit_eq s.heap hc.hK hc.hN hr1 hr2
  refine ⟨f, hspec, ?_⟩
  by_cases hrej : f = 0 ∧ s.heap.status 0 = true
  · left
    refine ⟨hrej.1, hrej.2, fun sbrk_ok => ?_⟩
    simp only [virtual_malloc, if_neg hsz0, hc.hK, if_neg (Nat.not_lt.mpr hlog), hsz, hfind,
      block_status]
    rw [if_pos hrej]
  · right
    refine ⟨hrej, ?_⟩
    obtain ⟨d, j, hf, hj, hd, hclear, hbud⟩ := fit_block hspec hr2 hrej
    obtain ⟨heap1, hsplit, hst, hh1, hh2, hh3, hh4, hh5, hh6, hh7, hh8⟩ :=
      block_split_eq s.heap hc.hK hK32 hj hd
    have hpow : 2 ^ (K - d) = 2 ^ (K - sz - d) * 2 ^ sz := by
      rw [← pow_add]; congr 1; omega
    have hj2 : j * 2 ^ (K - sz - d) < 2 ^ (K - sz) := by
      have : 2 ^ (K - sz) = 2 ^ d * 2 ^ (K - sz - d) := by rw [← pow_add]; congr 1; omega
      rw [this]; exact Nat.mul_lt_mul_of_pos_right hj (two_pow_pos_nat _)
    have hptr : block_to_ptr heap1 (node (K - sz) (j * 2 ^ (K - sz - d)))
        = S + j * 2 ^ (K - d) := by
      rw [block_to_ptr_node heap1 hj2 (by rw [hh1, hc.hK]; omega) (by rw [hh1, hc.hK]; exact hK32),
        hh4, hc.hS, hh1, hc.hK, hpow, show K - (K - sz) = sz by omega, mul_assoc]
    -- the new allocation and its block
    have hocc : occupies K M S (S + j * 2 ^ (K - d), sz) (node (K - sz) (j * 2 ^ (K - sz - d))) :=
      ⟨K - sz, j * 2 ^ (K - sz - d), hj2, by omega, by simp only; omega,
        by simp only; rw [hpow, mul_assoc], rfl⟩
    have hb : node (K - sz) (j * 2 ^ (K - sz - d)) = LEFT^[K - sz - d] f := by
      rw [hf, LEFT_iterate_node]; congr 1; omega
    have hlive : ∀ n, (live_nodes K M S s.live n ∨ n = LEFT^[K - sz - d] f) ↔
        live_nodes K M S ((S + j * 2 ^ (K - d), sz) :: s.live) n := by
      intro n
      rw [live_nodes_cons]
      constructor
      · rintro (h | h)
        · exact Or.inl h
        · exact Or.inr (by rw [h, ← hb]; exact hocc)
      · rintro (h | h)
        · exact Or.inl h
        · exact Or.inr (by rw [← hb]; exact occupies_fun h hocc)
    have hst' : ∀ x, heap1.status x = true ↔ s.heap.status x = true ∨ x = f ∨
        ∃ t, 1 ≤ t ∧ t ≤ K - sz - d ∧ x = LEFT^[t] f := by
      intro x; rw [hst x, hf]
    obtain ⟨hrep, hanti⟩ := Rep_split hc.rep hc.anti hclear hbud hst'
    have hrep1 := Rep_congr hlive hrep
    have hanti1 := Anti_congr hlive hanti
    have hbset : heap1.status (node (K - sz) (j * 2 ^ (K - sz - d))) = true :=
      (hrep1 _).mpr ⟨_, (live_nodes_cons _ _ _ _ _ _).mpr (Or.inr hocc), anc.refl _⟩
    have hblt : node (K - sz) (j * 2 ^ (K - sz - d)) < s.heap.num_blocks := by
      rw [hc.hN]; exact occupies_lt hocc
    have hwf : ∀ a, a ∈ (S + j * 2 ^ (K - d), sz) :: s.live → ∃ n, occupies K M S a n := by
      intro a ha
      rcases List.mem_cons.mp ha with h | h
      · exact ⟨_, h ▸ hocc⟩
      · exact hc.wf a h
    have hnodup : (((S + j * 2 ^ (K - d), sz) :: s.live).map Prod.fst).Nodup := by
      rw [List.map_cons, List.nodup_cons]
      refine ⟨?_, hc.nodup⟩
      intro hmem
      obtain ⟨a, ha, hpa⟩ := List.mem_map.mp hmem
      obtain ⟨n, hn⟩ := hc.wf a ha
      have hln : live_nodes K M S ((S + j * 2 ^ (K - d), sz) :: s.live) n :=
        (live_nodes_cons _ _ _ _ _ _).mpr (Or.inl ⟨a, ha, hn⟩)
      have hlb : live_nodes K M S ((S + j * 2 ^ (K - d), sz) :: s.live)
          (node (K - sz) (j * 2 ^ (K - sz - d))) :=
        (live_nodes_cons _ _ _ _ _ _).mpr (Or.inr hocc)
      have hnb : n = node (K - sz) (j * 2 ^ (K - sz - d)) := by
        rcases occupies_same_ptr hn hocc hpa with h | h
        · exact hanti1 _ _ hln hlb h
        · exact (hanti1 _ _ hlb hln h).symm
      have hnf : anc f n := by rw [hnb, hb]; exact anc_LEFT_iterate _ _
      have := (hc.rep f).mpr ⟨n, ⟨a, ha, hn⟩, hnf⟩
      rw [hclear] at this
      exact Bool.false_ne_true this
    have hmono : ∀ x, s.heap.status x = true → heap1.status x = true :=
      fun x hx => (hst' x).mpr (Or.inl hx)
    have hval : ∀ sbrk_ok, virtual_malloc s.heap size sbrk_ok = some
        (if heap1.cur_break < S + j * 2 ^ (K - d) + 2 ^ sz then
          (if sbrk_ok = true then
            (({ heap1 with cur_break := S + j * 2 ^ (K - d) + 2 ^ sz,
                           last_used_block := node (K - sz) (j * 2 ^ (K - sz - d)) } : heap_t),
              S + j * 2 ^ (K - d))
          else ((virtual_free heap1 (S + j * 2 ^ (K - d))).1, 0))
        else (heap1, S + j * 2 ^ (K - d))) := by
      intro sbrk_ok
      simp only [virtual_malloc, if_neg hsz0, hc.hK, if_neg (Nat.not_lt.mpr hlog), hsz, hfind,
        block_status]
      rw [if_neg hrej, hf, hsplit]
      simp only [hptr, shl32_eq (Nat.lt_of_le_of_lt hr2 hK32)]
      split
      · split <;> rfl
      · rfl
    have hend : block_end heap1 (node (K - sz) (j * 2 ^ (K - sz - d)))
        = S + j * 2 ^ (K - d) + 2 ^ sz := by
      simp only [block_end]
      rw [hptr, block_sz_node heap1 hj2 (by rw [hh1, hc.hK]; omega) (by rw [hh1, hc.hK]; omega),
        hh1, hc.hK, show K - (K - sz) = sz by omega, shl32_eq (Nat.lt_of_le_of_lt hr2 hK32)]
    refine ⟨d, j, heap1, hf, hj, hd, ⟨hh1, hh2, hh3, hh4, hh5, hh6, hh7, hh8⟩, ?_, hbset, hblt,
      hend, hval⟩
    refine ⟨hh1.trans hc.hK, hh2.trans hc.hM, hh3.trans hc.hN, hh4.trans hc.hS, hwf, hnodup,
      hanti1, hrep1, ?_, ?_, ?_, ?_, ?_, ?_⟩
    · show S ≤ heap1.cur_break
      rw [hh5]; exact hc.brk_ge
    · show heap1.temp_break = 0 ∨ S ≤ heap1.temp_break
      rw [hh8]; exact hc.tmp_ge
    · intro h
      have h' : heap1.last_used_block = heap1.num_blocks := h
      rw [hh6, hh3] at h'
      show heap1.temp_break = S ∨ (heap1.temp_break = 0 ∧ heap1.cur_break = S)
      rw [hh8, hh5]
      exact hc.last_top h'
    · intro h
      have h' : heap1.last_used_block ≠ heap1.num_blocks := h
      rw [hh6, hh3] at h'
      show heap1.status heap1.last_used_block = true
      rw [hh6]
      exact hmono _ (hc.last_set h')
    · intro h
      have h' : heap1.last_used_block ≠ heap1.num_blocks := h
      rw [hh6, hh3] at h'
      show heap1.cur_break ≤ block_end heap1 heap1.last_used_block
      rw [hh5, hh6, block_end_congr hh1 hh4]
      exact hc.brk_le h'
    · intro h
      have h' : heap1.temp_break ≠ 0 := h
      show heap1.temp_break ≤ heap1.cur_break
      rw [hh8] at h' ⊢
      rw [hh5]
      exact hc.tmp_le h'

theorem virtual_malloc_ok {K M S : Nat} {s : alloc_state} (hc : Core K M S s) (hMK : M ≤ K)
    (hK32 : K < 32) {size : Nat} (hsz0 : size ≠ 0) (hlog : my_log2 size ≤ K) :
    ∃ f, find_fit_spec s.heap K (req_order s.heap size) f ∧
      ((f = 0 ∧ s.heap.status 0 = true ∧ virtual_malloc s.heap size true = some (s.heap, 0)) ∨
       (¬ (f = 0 ∧ s.heap.status 0 = true) ∧ ∃ d j heap1, f = node d j ∧ j < 2 ^ d ∧
          d + req_order s.heap size ≤ K ∧
          virtual_malloc s.heap size true = some (heap1, S + j * 2 ^ (K - d)) ∧
          Core K M S ⟨heap1, (S + j * 2 ^ (K - d), req_order s.heap size) :: s.live⟩ ∧
          heap1.allow_shrink = s.heap.allow_shrink ∧ heap1.temp_break = s.heap.temp_break ∧
          S + j * 2 ^ (K - d) + 2 ^ req_order s.heap size ≤ heap1.cur_break)) := by
  obtain ⟨f, hspec, hcase⟩ := virtual_malloc_split hc hMK hK32 hsz0 hlog
  refine ⟨f, hspec, ?_⟩
  rcases hcase with ⟨h0, hs0, hval⟩ | ⟨hrej, d, j, heap1, hf, hj, hd, hsame, hc1, hbset, hblt,
    hend, hval⟩
  · exact Or.inl ⟨h0, hs0, hval true⟩
  · right
    obtain ⟨hh1, hh2, hh3, hh4, hh5, hh6, hh7, hh8⟩ := hsame
    generalize req_order s.heap size = sz at *
    have hv := hval true
    by_cases hext : heap1.cur_break < S + j * 2 ^ (K - d) + 2 ^ sz
    · rw [if_pos hext, if_pos rfl] at hv
      refine ⟨hrej, d, j, _, hf, hj, hd, hv, ?_, hh7, hh8, le_refl _⟩
      refine ⟨hc1.hK, hc1.hM, hc1.hN, hc1.hS, hc1.wf, hc1.nodup, hc1.anti, hc1.rep, ?_,
        hc1.tmp_ge, ?_, ?_, ?_, ?_⟩
      · show S ≤ S + j * 2 ^ (K - d) + 2 ^ sz
        exact Nat.le_trans (Nat.le_add_right _ _) (Nat.le_add_right _ _)
      · intro h
        have h' : node (K - sz) (j * 2 ^ (K - sz - d)) = heap1.num_blocks := h
        rw [hh3] at h'; omega
      · intro _
        exact hbset
      · intro _
        show S + j * 2 ^ (K - d) + 2 ^ sz ≤ block_end _ (node (K - sz) (j * 2 ^ (K - sz - d)))
        rw [← hend]
        exact Nat.le_of_eq (block_end_congr rfl rfl _)
      · intro h
        have h' : heap1.temp_break ≠ 0 := h
        show heap1.temp_break ≤ S + j * 2 ^ (K - d) + 2 ^ sz
        exact Nat.le_trans (hc1.tmp_le h') (Nat.le_of_lt hext)
    · rw [if_neg hext] at hv
      exact ⟨hrej, d, j, heap1, hf, hj, hd, hv, hc1, hh7, hh8, Nat.le_of_not_lt hext⟩

/-! ## `virtual_free` -/

theorem free_shrink_spec (heap : heap_t) :
    (free_shrink heap).status = heap.status ∧
    (free_shrink heap).initial_size = heap.initial_size ∧
    (free_shrink heap).min_size = heap.min_size ∧
    (free_shrink heap).num_blocks = heap.num_blocks ∧
    (free_shrink heap).start = heap.start ∧
    (free_shrink heap).allow_shrink = heap.allow_shrink ∧
    (free_shrink heap).last_used_block
      = (if heap.last_used_block = 0 ∧ heap.status 0 = false then heap.num_blocks
         else heap.last_used_block) ∧
    ∃ last, heap.start ≤ last ∧
      (heap.last_used_block = 0 ∧ heap.status 0 = false → last = heap.start) ∧
      (¬ (heap.last_used_block = 0 ∧ heap.status 0 = false) →
        last = block_end heap heap.last_used_block) ∧
      ((last < heap.cur_break ∧ heap.allow_shrink = true ∧
          (free_shrink heap).cur_break = last ∧
          (free_shrink heap).temp_break = heap.temp_break) ∨
       (last < heap.cur_break ∧ heap.allow_shrink = false ∧
          (free_shrink heap).cur_break = heap.cur_break ∧
          (free_shrink heap).temp_break = last) ∨
       (heap.cur_break ≤ last ∧ (free_shrink heap).cur_break = heap.cur_break ∧
          (free_shrink heap).temp_break = heap.temp_break)) := by
  by_cases hcond : heap.last_used_block = 0 ∧ heap.status 0 = false
  · rw [if_pos hcond]
    by_cases hgt : heap.cur_break > heap.start
    · cases hs : heap.allow_shrink with
      | true =>
        have e : free_shrink heap = { heap with last_used_block := heap.num_blocks,
                                                cur_break := heap.start } := by
          simp only [free_shrink, block_status, if_pos hcond, if_pos hgt, hs, if_true]
        rw [e]
        exact ⟨rfl, rfl, rfl, rfl, rfl, hs, rfl, heap.start, le_refl _, fun _ => rfl, fun h => absurd hcond h,
          Or.inl ⟨hgt, rfl, rfl, rfl⟩⟩
      | false =>
        have e : free_shrink heap = { heap with last_used_block := heap.num_blocks,
                                                temp_break := heap.start } := by
          simp only [free_shrink, block_status, if_pos hcond, if_pos hgt, hs,
            Bool.false_eq_true, if_false]
        rw [e]
        exact ⟨rfl, rfl, rfl, rfl, rfl, hs, rfl, heap.start, le_refl _, fun _ => rfl, fun h => absurd hcond h,
          Or.inr (Or.inl ⟨hgt, rfl, rfl, rfl⟩)⟩
    · have e : free_shrink heap = { heap with last_used_block := heap.num_blocks } := by
        simp only [free_shrink, block_status, if_pos hcond, if_neg hgt]
      rw [e]
      exact ⟨rfl, rfl, rfl, rfl, rfl, rfl, rfl, heap.start, le_refl _, fun _ => rfl, fun h => absurd hcond h,
        Or.inr (Or.inr ⟨Nat.le_of_not_lt hgt, rfl, rfl⟩)⟩
  · rw [if_neg hcond]
    have hle : heap.start ≤ block_to_ptr heap heap.last_used_block
        + shl32 (block_sz heap heap.last_used_block) :=
      Nat.le_trans (Nat.le_add_right _ _) (Nat.le_add_right _ _)
    by_cases hgt : heap.cur_break > block_to_ptr heap heap.last_used_block
        + shl32 (block_sz heap heap.last_used_block)
    · cases hs : heap.allow_shrink with
      | true =>
        have e : free_shrink heap = { heap with cur_break :=
            (block_to_ptr heap heap.last_used_block
              + shl32 (block_sz heap heap.last_used_block)) } := by
          simp only [free_shrink, block_status, if_neg hcond, if_pos hgt, hs, if_true]
        rw [e]
        exact ⟨rfl, rfl, rfl, rfl, rfl, hs, rfl, _, hle, fun h => absurd h hcond, fun _ => rfl,
          Or.inl ⟨hgt, rfl, rfl, rfl⟩⟩
      | false =>
        have e : free_shrink heap = { heap with temp_break :=
            (block_to_ptr heap heap.last_used_block
              + shl32 (block_sz heap heap.last_used_block)) } := by
          simp only [free_shrink, block_status, if_neg hcond, if_pos hgt, hs,
            Bool.false_eq_true, if_false]
        rw [e]
        exact ⟨rfl, rfl, rfl, rfl, rfl, hs, rfl, _, hle, fun h => absurd h hcond, fun _ => rfl,
          Or.inr (Or.inl ⟨hgt, rfl, rfl, rfl⟩)⟩
    · have e : free_shrink heap = heap := by
        simp only [free_shrink, block_status, if_neg hcond, if_neg hgt]
      rw [e]
      exact ⟨rfl, rfl, rfl, rfl, rfl, rfl, rfl, _, hle, fun h => absurd h hcond, fun _ => rfl,
        Or.inr (Or.inr ⟨Nat.le_of_not_lt hgt, rfl, rfl⟩)⟩


/-- A live pointer resolves to the block that its allocation occupies. -/
theorem ptr_to_block_live {K M S : Nat} {s : alloc_state} (hc : Core K M S s) (hK32 : K < 32)
    {a : Nat × Nat} {b : Nat} (ha : a ∈ s.live) (hocc : occupies K M S a b) :
    ptr_to_block s.heap a.1 = b ∧ b < s.heap.num_blocks ∧ s.heap.status b = true ∧
      (LEFT b < s.heap.num_blocks → s.heap.status (LEFT b) = false) := by
  have hlb : live_nodes K M S s.live b := ⟨a, ha, hocc⟩
  have hclear : LEFT b < s.heap.num_blocks → s.heap.status (LEFT b) = false := by
    intro _
    cases hs : s.heap.status (LEFT b) with
    | false => rfl
    | true =>
      exfalso
      obtain ⟨n, hn, han⟩ := (hc.rep _).mp hs
      have hbn := hc.anti b n hlb hn (anc_trans (anc_LEFT b) han)
      subst hbn
      have := anc_le han
      simp only [LEFT] at this; omega
  have hset : ∀ x, anc x b → s.heap.status x = true := fun x hx => (hc.rep x).mpr ⟨b, hlb, hx⟩
  have hlt : b < s.heap.num_blocks := by rw [hc.hN]; exact occupies_lt hocc
  refine ⟨?_, hlt, hset b (anc.refl _), hclear⟩
  obtain ⟨d, j, hj, hd, hr, hp, hn⟩ := hocc
  subst hn
  have hr' : a.2 = K - d := by omega
  rw [hp, hr', ← hc.hS]
  exact ptr_to_block_node s.heap hc.hK hc.hM hc.hN hK32 hj hd hset hclear

theorem occupies_ptr_pos {K M S : Nat} {a : Nat × Nat} {n : Nat} (h : occupies K M S a n)
    (hS : 0 < S) : a.1 ≠ 0 := by
  obtain ⟨d, j, _, _, _, hp, _⟩ := h
  omega

theorem virtual_free_ok {K M S : Nat} {s : alloc_state} (hc : Core K M S s) (hK32 : K < 32)
    (hS : 0 < S) (htmp : s.heap.temp_break = 0) {a : Nat × Nat} (ha : a ∈ s.live) :
    (virtual_free s.heap a.1).2 = 0 ∧
    Core K M S ⟨(virtual_free s.heap a.1).1, drop_live s.live a.1⟩ ∧
    (virtual_free s.heap a.1).1.allow_shrink = s.heap.allow_shrink ∧
    (s.heap.allow_shrink = true → (virtual_free s.heap a.1).1.temp_break = 0) := by
  obtain ⟨b, hocc⟩ := hc.wf a ha
  obtain ⟨hres, hlt, hset, _⟩ := ptr_to_block_live hc hK32 ha hocc
  have hlb : live_nodes K M S s.live b := ⟨a, ha, hocc⟩
  have hval : virtual_free s.heap a.1
      = (free_shrink (free_merge b (block_free s.heap b) b), 0) := by
    simp only [virtual_free, if_neg (occupies_ptr_pos hocc hS), hres, block_status, hset]
    rw [if_neg (by omega)]
    simp
  rw [hval]
  have hP := live_nodes_drop hc.nodup ha hocc
  -- the coalescing loop
  have hJ : ∀ i, (block_free s.heap b).status i = true ↔
      (∃ n, live_nodes K M S (drop_live s.live a.1) n ∧ anc i n) ∨ (anc i b ∧ i ≠ b) := by
    intro i
    simp only [block_free]
    by_cases hi : i = b
    · subst hi
      simp only [if_true, Bool.false_eq_true, false_iff, not_or, not_exists, not_and, ne_eq,
        not_true_eq_false, and_false, not_false_eq_true, and_true]
      intro n hn han
      exact ((hP n).mp hn).2 (hc.anti _ _ hlb ((hP n).mp hn).1 han).symm
    · simp only [hi, if_false]
      rw [hc.rep i]
      constructor
      · rintro ⟨n, hn, han⟩
        by_cases hnb : n = b
        · exact Or.inr ⟨hnb ▸ han, hi⟩
        · exact Or.inl ⟨n, (hP n).mpr ⟨hn, hnb⟩, han⟩
      · rintro (⟨n, hn, han⟩ | ⟨h1, _⟩)
        · exact ⟨n, ((hP n).mp hn).1, han⟩
        · exact ⟨b, hlb, h1⟩
  have hbelow : ∀ n, live_nodes K M S (drop_live s.live a.1) n → ¬ anc b n := by
    intro n hn han
    exact ((hP n).mp hn).2 (hc.anti _ _ hlb ((hP n).mp hn).1 han).symm
  have habove : ∀ n, live_nodes K M S (drop_live s.live a.1) n → ¬ anc n b := by
    intro n hn han
    exact ((hP n).mp hn).2 (hc.anti _ _ ((hP n).mp hn).1 hlb han)
  have hQ : (block_free s.heap b).last_used_block = s.heap.num_blocks ∨
      (block_free s.heap b).status (block_free s.heap b).last_used_block = true ∨
      (block_free s.heap b).last_used_block = b := by
    by_cases hL : s.heap.last_used_block = s.heap.num_blocks
    · exact Or.inl hL
    · by_cases hLb : s.heap.last_used_block = b
      · exact Or.inr (Or.inr hLb)
      · right; left
        simp only [block_free, hLb, if_false]
        exact hc.last_set hL
  obtain ⟨hrep, hLm⟩ := free_merge_spec _ s.heap.num_blocks b (block_free s.heap b) b (le_refl _)
    hJ hbelow habove hQ
  obtain ⟨m1, m2, m3, m4, m5, m6, m7, m8⟩ := free_merge_fields b (block_free s.heap b) b
  have m9 := free_merge_last b (block_free s.heap b) b (by simp only [block_free, if_true])
  generalize free_merge b (block_free s.heap b) b = hm at hrep hLm m1 m2 m3 m4 m5 m6 m7 m8 m9
  change hm.last_used_block = s.heap.last_used_block ∨
    (hm.status s.heap.last_used_block = false ∧ anc s.heap.last_used_block b ∧
      anc hm.last_used_block s.heap.last_used_block) at m9
  change hm.initial_size = s.heap.initial_size at m1
  change hm.min_size = s.heap.min_size at m2
  change hm.num_blocks = s.heap.num_blocks at m3
  change hm.start = s.heap.start at m4
  change hm.cur_break = s.heap.cur_break at m5
  change hm.allow_shrink = s.heap.allow_shrink at m6
  change hm.temp_break = s.heap.temp_break at m7
  change hm.last_used_block = s.heap.last_used_block ∨ hm.last_used_block < b at m8
  have hbl : hm.last_used_block ≠ s.heap.num_blocks →
      s.heap.cur_break ≤ block_end hm hm.last_used_block := by
    intro hne
    rw [block_end_congr m1 m4]
    rcases m9 with h | ⟨_, h2, h3⟩
    · rw [h] at hne ⊢
      exact hc.brk_le hne
    · have hle := anc_le h2
      have hKi : s.heap.initial_size < 32 := by rw [hc.hK]; exact hK32
      have hlt2 : s.heap.last_used_block < 2 ^ (s.heap.initial_size + 1) - 1 := by
        have h1 : 2 ^ (K - M + 1) ≤ 2 ^ (K + 1) :=
          Nat.pow_le_pow_right (by decide) (by omega)
        rw [hc.hK]
        rw [hc.hN] at hlt
        omega
      exact Nat.le_trans (hc.brk_le (by omega)) (block_end_anc s.heap hKi h3 hlt2)
  obtain ⟨f1, f2, f3, f4, f5, f6, f7, last, hlast, hlast0, hlast1, hcases⟩ := free_shrink_spec hm
  generalize free_shrink hm = hf at f1 f2 f3 f4 f5 f6 f7 hcases
  have hanti : Anti (live_nodes K M S (drop_live s.live a.1)) :=
    fun n m hn hm' h => hc.anti n m ((hP n).mp hn).1 ((hP m).mp hm').1 h
  have hwf : ∀ x, x ∈ drop_live s.live a.1 → ∃ n, occupies K M S x n :=
    fun x hx => hc.wf x (mem_drop_live.mp hx).1
  have hnodup : ((drop_live s.live a.1).map Prod.fst).Nodup :=
    List.Nodup.sublist (List.Sublist.map _ (List.filter_sublist _)) hc.nodup
  have hSm : hm.start = S := m4.trans hc.hS
  have htm : hm.temp_break = 0 := m7.trans htmp
  refine ⟨rfl, ⟨f2.trans (m1.trans hc.hK), f3.trans (m2.trans hc.hM),
    f4.trans (m3.trans hc.hN), f5.trans hSm, hwf, hnodup, hanti, ?_, ?_, ?_, ?_, ?_, ?_, ?_⟩,
    f6.trans m6, ?_⟩
  · show Rep hf.status _
    rw [f1]; exact hrep
  · show S ≤ hf.cur_break
    rcases hcases with ⟨_, _, h3, _⟩ | ⟨_, _, h3, _⟩ | ⟨_, h3, _⟩
    · rw [h3, ← hSm]; exact hlast
    · rw [h3, m5]; exact hc.brk_ge
    · rw [h3, m5]; exact hc.brk_ge
  · show hf.temp_break = 0 ∨ S ≤ hf.temp_break
    rcases hcases with ⟨_, _, _, h4⟩ | ⟨_, _, _, h4⟩ | ⟨_, _, h4⟩
    · exact Or.inl (h4.trans htm)
    · right; rw [h4, ← hSm]; exact hlast
    · exact Or.inl (h4.trans htm)
  · intro hL
    change hf.last_used_block = hf.num_blocks at hL
    show hf.temp_break = S ∨ (hf.temp_break = 0 ∧ hf.cur_break = S)
    rw [f7, f4] at hL
    by_cases hcond : hm.last_used_block = 0 ∧ hm.status 0 = false
    · have hl := hlast0 hcond
      rw [hSm] at hl
      subst hl
      rcases hcases with ⟨_, _, h3, h4⟩ | ⟨_, _, _, h4⟩ | ⟨h2, h3, h4⟩
      · exact Or.inr ⟨h4.trans htm, h3⟩
      · exact Or.inl h4
      · refine Or.inr ⟨h4.trans htm, ?_⟩
        have := hc.brk_ge
        rw [h3, m5]; rw [m5] at h2; omega
    · rw [if_neg hcond] at hL
      have hLs : s.heap.last_used_block = s.heap.num_blocks := by
        rcases m8 with h | h
        · rw [← h, hL, m3]
        · rw [hL, m3] at h; omega
      have hbrk : s.heap.cur_break = S := by
        rcases hc.last_top hLs with h | ⟨_, h⟩
        · rw [htmp] at h; omega
        · exact h
      rw [hSm] at hlast
      rcases hcases with ⟨h1, _, _, _⟩ | ⟨h1, _, _, _⟩ | ⟨_, h3, h4⟩
      · rw [m5] at h1; omega
      · rw [m5] at h1; omega
      · exact Or.inr ⟨h4.trans htm, by rw [h3, m5]; exact hbrk⟩
  · intro hL
    change hf.last_used_block ≠ hf.num_blocks at hL
    show hf.status hf.last_used_block = true
    rw [f7, f4] at hL
    rw [f1, f7]
    by_cases hcond : hm.last_used_block = 0 ∧ hm.status 0 = false
    · rw [if_pos hcond] at hL; exact absurd rfl hL
    · rw [if_neg hcond] at hL ⊢
      rcases hLm with h | h | h
      · exact absurd (h.trans m3.symm) hL
      · exact h
      · rw [h]
        cases hs0 : hm.status 0 with
        | true => rfl
        | false => exact absurd ⟨h, hs0⟩ hcond
  · intro hL
    change hf.last_used_block ≠ hf.num_blocks at hL
    show hf.cur_break ≤ block_end hf hf.last_used_block
    rw [f7, f4] at hL
    rw [block_end_congr f2 f5, f7]
    by_cases hcond : hm.last_used_block = 0 ∧ hm.status 0 = false
    · rw [if_pos hcond] at hL; exact absurd rfl hL
    · rw [if_neg hcond] at hL ⊢
      have hl := hlast1 hcond
      have hb2 := hbl (by rw [← m3]; exact hL)
      rcases hcases with ⟨_, _, h3, _⟩ | ⟨h1, _, _, _⟩ | ⟨h2, h3, _⟩
      · rw [h3, hl]
      · rw [m5, hl] at h1; omega
      · rw [h3, m5]; exact hb2
  · intro ht
    change hf.temp_break ≠ 0 at ht
    show hf.temp_break ≤ hf.cur_break
    rcases hcases with ⟨_, _, _, h4⟩ | ⟨h1, _, h3, h4⟩ | ⟨_, _, h4⟩
    · exact absurd (h4.trans htm) ht
    · rw [h4, h3]; exact Nat.le_of_lt h1
    · exact absurd (h4.trans htm) ht
  · intro has
    show hf.temp_break = 0
    rcases hcases with ⟨_, _, _, h4⟩ | ⟨_, h2, _, _⟩ | ⟨_, _, h4⟩
    · exact h4.trans htm
    · rw [m6, has] at h2; exact absurd h2 (by simp)
    · exact h4.trans htm


/-! ## `my_log2` -/

theorem my_log2_loop_spec (n : Nat) (fuel : Nat) : ∀ (i : Nat), fuel + i = 32 →
    (∀ k, k < i → ¬ n ≤ 2 ^ k) →
    (∃ k, k < 32 ∧ n ≤ 2 ^ k ∧ (∀ k1, k1 < k → ¬ n ≤ 2 ^ k1) ∧ my_log2_loop fuel n i = k) ∨
    ((∀ k, k < 32 → ¬ n ≤ 2 ^ k) ∧ my_log2_loop fuel n i = 0) := by
  induction fuel with
  | zero =>
    intro i hi hlow
    right
    exact ⟨fun k hk => hlow k (by omega), rfl⟩
  | succ fuel ih =>
    intro i hi hlow
    have hi32 : i < 32 := by omega
    simp only [my_log2_loop, shl32_eq hi32]
    by_cases hle : n ≤ 2 ^ i
    · left
      exact ⟨i, hi32, hle, hlow, by rw [if_pos hle]⟩
    · rw [if_neg hle]
      apply ih (i + 1) (by omega)
      intro k hk
      by_cases hki : k = i
      · subst hki; exact hle
      · exact hlow k (by omega)

theorem my_log2_spec (n : Nat) :
    (my_log2 n < 32 ∧ n ≤ 2 ^ my_log2 n ∧ ∀ k, k < my_log2 n → ¬ n ≤ 2 ^ k) ∨
    (2 ^ 31 < n ∧ my_log2 n = 0) := by
  rcases my_log2_loop_spec n 32 0 rfl (fun k hk => absurd hk (Nat.not_lt_zero k)) with
    ⟨k, h1, h2, h3, h4⟩ | ⟨h1, h2⟩
  · left
    simp only [my_log2, h4]
    exact ⟨h1, h2, h3⟩
  · right
    exact ⟨Nat.lt_of_not_le (h1 31 (by decide)), h2⟩

theorem my_log2_eq_clog {n : Nat} (h : n ≤ 2 ^ 31) : my_log2 n = Nat.clog 2 n := by
  rcases my_log2_spec n with ⟨_, h2, h3⟩ | ⟨h1, _⟩
  · apply Nat.le_antisymm
    · by_contra hlt
      have hlt' : Nat.clog 2 n < my_log2 n := Nat.lt_of_not_le hlt
      exact h3 _ hlt' (Nat.le_pow_clog (by decide) n)
    · exact (Nat.le_pow_iff_clog_le (by decide)).mp h2
  · omega

theorem my_log2_two_pow {k : Nat} (hk : k < 32) : my_log2 (2 ^ k) = k := by
  have h31 : 2 ^ k ≤ 2 ^ 31 := Nat.pow_le_pow_right (by decide) (by omega)
  rw [my_log2_eq_clog h31]
  exact Nat.clog_pow 2 k (by decide)

/-! ## Bitmap representation when a live block is split -/

theorem Rep_shrink {st st1 : Nat → Bool} {P : Nat → Prop} {b t : Nat} (hR : Rep st P)
    (hA : Anti P) (hb : P b)
    (hst : ∀ x, st1 x = true ↔ st x = true ∨ x = b ∨ ∃ s, 1 ≤ s ∧ s ≤ t ∧ x = LEFT^[s] b) :
    Rep st1 (fun n => (P n ∧ n ≠ b) ∨ n = LEFT^[t] b) ∧
    Anti (fun n => (P n ∧ n ≠ b) ∨ n = LEFT^[t] b) := by
  constructor
  · intro x
    rw [hst x]
    constructor
    · rintro (h | h | ⟨s, h1, h2, h3⟩)
      · obtain ⟨n, hn, han⟩ := (hR x).mp h
        by_cases hnb : n = b
        · exact ⟨_, Or.inr rfl, anc_trans (hnb ▸ han) (anc_LEFT_iterate t b)⟩
        · exact ⟨n, Or.inl ⟨hn, hnb⟩, han⟩
      · exact ⟨_, Or.inr rfl, h ▸ anc_LEFT_iterate t b⟩
      · exact ⟨_, Or.inr rfl, (anc_LEFT_iterate_iff t b x).mpr (Or.inr ⟨s, h1, h2, h3⟩)⟩
    · rintro ⟨n, ⟨hn, _⟩ | hn, han⟩
      · exact Or.inl ((hR x).mpr ⟨n, hn, han⟩)
      · subst hn
        rcases (anc_LEFT_iterate_iff t b x).mp han with h | h
        · exact Or.inl ((hR x).mpr ⟨b, hb, h⟩)
        · exact Or.inr (Or.inr h)
  · intro n m hn hm hnm
    rcases hn with ⟨hn, hnb⟩ | hn <;> rcases hm with ⟨hm, hmb⟩ | hm
    · exact hA n m hn hm hnm
    · subst hm
      exfalso
      rcases (anc_LEFT_iterate_iff t b n).mp hnm with h | ⟨s, _, _, h3⟩
      · exact hnb (hA n b hn hb h)
      · exact hnb (hA b n hb hn (h3 ▸ anc_LEFT_iterate s b)).symm
    · subst hn
      exact absurd (hA b m hb hm (anc_trans (anc_LEFT_iterate t b) hnm)).symm hmb
    · rw [hn, hm]


/-! ## `virtual_realloc` -/

theorem live_nodes_congr {K M S : Nat} {l1 l2 : List (Nat × Nat)}
    (h : ∀ x, x ∈ l1 ↔ x ∈ l2) (n : Nat) : live_nodes K M S l1 n ↔ live_nodes K M S l2 n := by
  simp only [live_nodes]
  constructor
  · rintro ⟨a, ha, ho⟩; exact ⟨a, (h a).mp ha, ho⟩
  · rintro ⟨a, ha, ho⟩; exact ⟨a, (h a).mpr ha, ho⟩

theorem Core_congr {K M S : Nat} {heap : heap_t} {l1 l2 : List (Nat × Nat)}
    (hc : Core K M S ⟨heap, l1⟩) (h : ∀ x, x ∈ l1 ↔ x ∈ l2) (hnd : (l2.map Prod.fst).Nodup) :
    Core K M S ⟨heap, l2⟩ :=
  ⟨hc.hK, hc.hM, hc.hN, hc.hS, fun a ha => hc.wf a ((h a).mpr ha), hnd,
    Anti_congr (live_nodes_congr h) hc.anti, Rep_congr (live_nodes_congr h) hc.rep,
    hc.brk_ge, hc.tmp_ge, hc.last_top, hc.last_set, hc.brk_le, hc.tmp_le⟩

theorem mem_cons_drop_live {live : List (Nat × Nat)} {a : Nat × Nat} (ha : a ∈ live)
    (hnd : (live.map Prod.fst).Nodup) (x : Nat × Nat) :
    x ∈ a :: drop_live live a.1 ↔ x ∈ live := by
  rw [List.mem_cons, mem_drop_live]
  constructor
  · rintro (h | ⟨h, _⟩)
    · exact h ▸ ha
    · exact h
  · intro h
    by_cases hx : x.1 = a.1
    · exact Or.inl (List.inj_on_of_nodup_map hnd h ha hx)
    · exact Or.inr ⟨h, hx⟩

theorem nodup_cons_drop_live {live : List (Nat × Nat)} (hnd : (live.map Prod.fst).Nodup)
    (p r : Nat) : (((p, r) :: drop_live live p).map Prod.fst).Nodup := by
  rw [List.map_cons, List.nodup_cons]
  refine ⟨?_, List.Nodup.sublist (List.Sublist.map _ (List.filter_sublist _)) hnd⟩
  intro hmem
  obtain ⟨x, hx, hp⟩ := List.mem_map.mp hmem
  exact (mem_drop_live.mp hx).2 hp

theorem Core_no_shrink {K M S : Nat} {heap : heap_t} {live : List (Nat × Nat)}
    (hc : Core K M S ⟨heap, live⟩) (v : Bool) :
    Core K M S ⟨{ heap with allow_shrink := v }, live⟩ :=
  ⟨hc.hK, hc.hM, hc.hN, hc.hS, hc.wf, hc.nodup, hc.anti, hc.rep, hc.brk_ge, hc.tmp_ge,
    hc.last_top, hc.last_set, hc.brk_le, hc.tmp_le⟩

theorem realloc_finish_ok {K M S : Nat} {heap : heap_t} {live : List (Nat × Nat)}
    (hc : Core K M S ⟨heap, live⟩) (hS : 0 < S) : Inv K M S ⟨realloc_finish heap, live⟩ := by
  by_cases ht : heap.temp_break ≠ 0
  · have e : realloc_finish heap = { heap with cur_break := heap.temp_break, temp_break := 0,
                                               allow_shrink := true } := by
      simp only [realloc_finish, if_pos ht]
    rw [e]
    have hge : S ≤ heap.temp_break := by
      rcases hc.tmp_ge with h | h
      · exact absurd h ht
      · exact h
    refine ⟨⟨hc.hK, hc.hM, hc.hN, hc.hS, hc.wf, hc.nodup, hc.anti, hc.rep, hge, Or.inl rfl,
      ?_, hc.last_set, ?_, fun h => absurd rfl h⟩, rfl, rfl⟩
    · intro hL
      right
      refine ⟨rfl, ?_⟩
      show heap.temp_break = S
      rcases hc.last_top hL with h | ⟨h, _⟩
      · exact h
      · exact absurd h ht
    · intro hL
      show heap.temp_break ≤ block_end _ heap.last_used_block
      exact Nat.le_trans (hc.tmp_le ht)
        (Nat.le_trans (hc.brk_le hL) (Nat.le_of_eq (block_end_congr rfl rfl _)))
  · have ht0 : heap.temp_break = 0 := by simpa using ht
    have e : realloc_finish heap = { heap with allow_shrink := true } := by
      simp only [realloc_finish, if_neg ht]
    rw [e]
    refine ⟨⟨hc.hK, hc.hM, hc.hN, hc.hS, hc.wf, hc.nodup, hc.anti, hc.rep, hc.brk_ge,
      hc.tmp_ge, ?_, hc.last_set, hc.brk_le, hc.tmp_le⟩, rfl, ht0⟩
    intro hL
    right
    refine ⟨ht0, ?_⟩
    show heap.cur_break = S
    rcases hc.last_top hL with h | ⟨_, h⟩
    · have h' : heap.temp_break = S := h
      omega
    · exact h

theorem block_sz_live {K M S : Nat} {s : alloc_state} (hc : Core K M S s) (hK32 : K < 32)
    {a : Nat × Nat} {b : Nat} (hocc : occupies K M S a b) : block_sz s.heap b = a.2 := by
  obtain ⟨d, j, hj, hd, hr, _, hn⟩ := hocc
  rw [hn, block_sz_node s.heap hj (by rw [hc.hK]; omega) (by rw [hc.hK]; omega), hc.hK]
  omega

/-- Shrinking or keeping the order in place: `virtual_realloc` returns the same
pointer and the invariant holds for the new set of live allocations. -/
theorem virtual_realloc_in_place {K M S : Nat} {s : alloc_state} (hi : Inv K M S s)
    (hMK : M ≤ K) (hK32 : K < 32) {a : Nat × Nat} (ha : a ∈ s.live) (hS : 0 < S)
    {size : Nat} (hsz0 : size ≠ 0) (hlog : my_log2 size ≤ K)
    (hle : req_order s.heap size ≤ a.2) :
    ∃ heap1, virtual_realloc s.heap a.1 size true = some (heap1, a.1) ∧
      Inv K M S ⟨heap1, (a.1, req_order s.heap size) :: drop_live s.live a.1⟩ ∧
      same_header s.heap heap1 ∧ (∀ x, s.heap.status x = true → heap1.status x = true) := by
  have hc := hi.core
  obtain ⟨b, hocc⟩ := hc.wf a ha
  obtain ⟨hres, hlt, hset, _⟩ := ptr_to_block_live hc hK32 ha hocc
  have hbsz := block_sz_live hc hK32 hocc
  have hptr := occupies_ptr_pos hocc hS
  obtain ⟨hr1, hr2⟩ := req_order_bounds s.heap hc.hM hMK hlog
  generalize hsz : req_order s.heap size = sz at hr1 hr2 hle ⊢
  by_cases heq : sz = a.2
  · refine ⟨s.heap, ?_, ⟨?_, hi.allow, hi.tmp⟩, ⟨rfl, rfl, rfl, rfl, rfl, rfl, rfl, rfl⟩,
      fun x hx => hx⟩
    · simp only [virtual_realloc, if_neg hptr, if_neg hsz0, hc.hK, if_neg (Nat.not_lt.mpr hlog),
        hsz, hres, hbsz]
      rw [if_pos heq]
    · have hcons : (a.1, sz) = a := by rw [heq]
      rw [hcons]
      exact Core_congr hc (fun x => (mem_cons_drop_live ha hc.nodup x).symm)
        (by have := nodup_cons_drop_live hc.nodup a.1 a.2; exact this)
  · have hlt2 : sz < a.2 := by omega
    obtain ⟨d, j, hj, hd, hr, hp, hn⟩ := hocc
    have hocc : occupies K M S a b := ⟨d, j, hj, hd, hr, hp, hn⟩
    obtain ⟨heap1, hsplit, hst, hh1, hh2, hh3, hh4, hh5, hh6, hh7, hh8⟩ :=
      @block_split_eq s.heap K d j sz hc.hK hK32 hj (by omega)
    have hmono : ∀ x, s.heap.status x = true → heap1.status x = true :=
      fun x hx => (hst x).mpr (Or.inl hx)
    refine ⟨heap1, ?_, ⟨?_, hh7.trans hi.allow, hh8.trans hi.tmp⟩,
      ⟨hh1, hh2, hh3, hh4, hh5, hh6, hh7, hh8⟩, hmono⟩
    · simp only [virtual_realloc, if_neg hptr, if_neg hsz0, hc.hK, if_neg (Nat.not_lt.mpr hlog),
        hsz, hres, hbsz]
      rw [if_neg heq, if_pos hlt2, hn, hsplit]
    · have hpow : 2 ^ a.2 = 2 ^ (K - sz - d) * 2 ^ sz := by
        rw [← pow_add]; congr 1; omega
      have hj2 : j * 2 ^ (K - sz - d) < 2 ^ (K - sz) := by
        have : 2 ^ (K - sz) = 2 ^ d * 2 ^ (K - sz - d) := by rw [← pow_add]; congr 1; omega
        rw [this]; exact Nat.mul_lt_mul_of_pos_right hj (two_pow_pos_nat _)
      have hocc1 : occupies K M S (a.1, sz) (node (K - sz) (j * 2 ^ (K - sz - d))) :=
        ⟨K - sz, j * 2 ^ (K - sz - d), hj2, by omega, by simp only; omega,
          by simp only; rw [hp, hpow, mul_assoc], rfl⟩
      have hb1 : node (K - sz) (j * 2 ^ (K - sz - d)) = LEFT^[K - sz - d] b := by
        rw [hn, LEFT_iterate_node]; congr 1; omega
      have hlb : live_nodes K M S s.live b := ⟨a, ha, hocc⟩
      have hlive : ∀ n, ((live_nodes K M S s.live n ∧ n ≠ b) ∨ n = LEFT^[K - sz - d] b) ↔
          live_nodes K M S ((a.1, sz) :: drop_live s.live a.1) n := by
        intro n
        rw [live_nodes_cons, live_nodes_drop hc.nodup ha hocc]
        constructor
        · rintro (h | h)
          · exact Or.inl h
          · exact Or.inr (by rw [h, ← hb1]; exact hocc1)
        · rintro (h | h)
          · exact Or.inl h
          · exact Or.inr (by rw [← hb1]; exact occupies_fun h hocc1)
      have hst' : ∀ x, heap1.status x = true ↔ s.heap.status x = true ∨ x = b ∨
          ∃ t, 1 ≤ t ∧ t ≤ K - sz - d ∧ x = LEFT^[t] b := by
        intro x; rw [hst x, hn]
      obtain ⟨hrep, hanti⟩ := Rep_shrink hc.rep hc.anti hlb hst'
      refine ⟨hh1.trans hc.hK, hh2.trans hc.hM, hh3.trans hc.hN, hh4.trans hc.hS, ?_,
        nodup_cons_drop_live hc.nodup a.1 sz, Anti_congr hlive hanti, Rep_congr hlive hrep,
        ?_, ?_, ?_, ?_, ?_, ?_⟩
      · intro x hx
        rcases List.mem_cons.mp hx with h | h
        · exact ⟨_, h ▸ hocc1⟩
        · exact hc.wf x (mem_drop_live.mp h).1
      · show S ≤ heap1.cur_break
        rw [hh5]; exact hc.brk_ge
      · show heap1.temp_break = 0 ∨ S ≤ heap1.temp_break
        rw [hh8]; exact hc.tmp_ge
      · intro h
        have h' : heap1.last_used_block = heap1.num_blocks := h
        rw [hh6, hh3] at h'
        show heap1.temp_break = S ∨ (heap1.temp_break = 0 ∧ heap1.cur_break = S)
        rw [hh8, hh5]
        exact hc.last_top h'
      · intro h
        have h' : heap1.last_used_block ≠ heap1.num_blocks := h
        rw [hh6, hh3] at h'
        show heap1.status heap1.last_used_block = true
        rw [hh6]
        exact hmono _ (hc.last_set h')
      · intro h
        have h' : heap1.last_used_block ≠ heap1.num_blocks := h
        rw [hh6, hh3] at h'
        show heap1.cur_break ≤ block_end heap1 heap1.last_used_block
        rw [hh5, hh6, block_end_congr hh1 hh4]
        exact hc.brk_le h'
      · intro h
        have h' : heap1.temp_break ≠ 0 := h
        show heap1.temp_break ≤ heap1.cur_break
        rw [hh8] at h' ⊢
        rw [hh5]
        exact hc.tmp_le h'


theorem virtual_malloc_inv {K M S : Nat} {s : alloc_state} (hc : Core K M S s) (hMK : M ≤ K)
    (hK32 : K < 32) (hS : 0 < S) (size : Nat) :
    ∃ heap1 p, virtual_malloc s.heap size true = some (heap1, p) ∧
      Core K M S ⟨heap1, if p = 0 then s.live else (p, req_order s.heap size) :: s.live⟩ ∧
      heap1.allow_shrink = s.heap.allow_shrink ∧ heap1.temp_break = s.heap.temp_break ∧
      (p = 0 → heap1 = s.heap) := by
  by_cases hsz0 : size = 0
  · refine ⟨s.heap, 0, by simp [virtual_malloc, hsz0], ?_, rfl, rfl, fun _ => rfl⟩
    rw [if_pos rfl]; exact hc
  · by_cases hlog : my_log2 size ≤ K
    · obtain ⟨f, _, h | h⟩ := virtual_malloc_ok hc hMK hK32 hsz0 hlog
      · refine ⟨s.heap, 0, h.2.2, ?_, rfl, rfl, fun _ => rfl⟩
        rw [if_pos rfl]; exact hc
      · obtain ⟨_, d, j, heap1, _, _, _, hval, hcore, h1, h2, _⟩ := h
        have hne : S + j * 2 ^ (K - d) ≠ 0 := by omega
        refine ⟨heap1, _, hval, ?_, h1, h2, fun h0 => absurd h0 hne⟩
        rw [if_neg hne]; exact hcore
    · refine ⟨s.heap, 0, ?_, ?_, rfl, rfl, fun _ => rfl⟩
      · simp only [virtual_malloc, if_neg hsz0, hc.hK]
        rw [if_pos (Nat.lt_of_not_le hlog)]
      · rw [if_pos rfl]; exact hc

theorem req_order_congr {h1 h2 : heap_t} (h : h1.min_size = h2.min_size) (size : Nat) :
    req_order h1 size = req_order h2 size := by
  simp only [req_order, h]

/-- The grow path of `virtual_realloc`, unfolded. -/
theorem virtual_realloc_grow_eq (heap : heap_t) (ptr size : Nat) (hptr : ptr ≠ 0)
    (hsz0 : size ≠ 0) (hlog : ¬ my_log2 size > heap.initial_size)
    (hne : ¬ req_order heap size = block_sz heap (ptr_to_block heap ptr))
    (hnlt : ¬ req_order heap size < block_sz heap (ptr_to_block heap ptr))
    (hfree : (virtual_free { heap with allow_shrink := false } ptr).2 = 0) :
    virtual_realloc heap ptr size true =
      match virtual_malloc (virtual_free { heap with allow_shrink := false } ptr).1 size true with
      | none => none
      | some (heap2, new_ptr) =>
        if new_ptr = 0 then
          match virtual_malloc heap2 (shl32 (block_sz heap (ptr_to_block heap ptr))) true with
          | none => none
          | some (heap3, again) =>
            if ptr = again then some (realloc_finish heap3, 0) else none
        else some (realloc_finish heap2, new_ptr) := by
  unfold virtual_realloc
  rw [if_neg hptr, if_neg hsz0, if_neg hlog]
  simp only []
  rw [if_neg hne, if_neg hnlt, if_neg (by rw [hfree]; simp)]

/-- Growing: `virtual_realloc` frees the block and allocates again; when it
returns, the invariant holds for the new set of live allocations. -/
theorem virtual_realloc_grow {K M S : Nat} {s : alloc_state} (hi : Inv K M S s)
    (hMK : M ≤ K) (hK32 : K < 32) {a : Nat × Nat} (ha : a ∈ s.live) (hS : 0 < S)
    {size : Nat} (hsz0 : size ≠ 0) (hlog : my_log2 size ≤ K)
    (hgt : a.2 < req_order s.heap size) {heap1 : heap_t} {q : Nat}
    (hval : virtual_realloc s.heap a.1 size true = some (heap1, q)) :
    (q = 0 ∧ Inv K M S ⟨heap1, s.live⟩) ∨
    (q ≠ 0 ∧ Inv K M S ⟨heap1, (q, req_order s.heap size) :: drop_live s.live a.1⟩) := by
  have hc := hi.core
  obtain ⟨b, hocc⟩ := hc.wf a ha
  obtain ⟨hres, _, _, _⟩ := ptr_to_block_live hc hK32 ha hocc
  have hbsz := block_sz_live hc hK32 hocc
  have hptr := occupies_ptr_pos hocc hS
  have ha2 : a.2 < 32 := by
    obtain ⟨d, j, _, _, hr, _, _⟩ := hocc; omega
  have haM : M ≤ a.2 ∧ a.2 ≤ K := by
    obtain ⟨d, j, _, hd, hr, _, _⟩ := hocc; omega
  have hfree : (virtual_free { s.heap with allow_shrink := false } a.1).2 = 0 ∧
      Core K M S ⟨(virtual_free { s.heap with allow_shrink := false } a.1).1,
        drop_live s.live a.1⟩ := by
    obtain ⟨h1, h2, _, _⟩ := virtual_free_ok
      (s := ⟨{ s.heap with allow_shrink := false }, s.live⟩)
      (Core_no_shrink hc false) hK32 hS hi.tmp ha
    exact ⟨h1, h2⟩
  obtain ⟨hf1, hf2⟩ := hfree
  rw [virtual_realloc_grow_eq s.heap a.1 size hptr hsz0 (by rw [hc.hK]; omega)
    (by rw [hres, hbsz]; omega) (by rw [hres, hbsz]; omega) hf1, hres, hbsz,
    shl32_eq ha2] at hval
  generalize (virtual_free { s.heap with allow_shrink := false } a.1).1 = hr at hval hf2
  have hro : req_order hr size = req_order s.heap size :=
    req_order_congr (hf2.hM.trans hc.hM.symm) size
  obtain ⟨heap2, p, hm, hcore2, _, _, hp0⟩ := virtual_malloc_inv hf2 hMK hK32 hS size
  change virtual_malloc hr size true = some (heap2, p) at hm
  change Core K M S ⟨heap2, if p = 0 then drop_live s.live a.1
    else (p, req_order hr size) :: drop_live s.live a.1⟩ at hcore2
  change p = 0 → heap2 = hr at hp0
  rw [hm] at hval
  simp only at hval
  by_cases hp : p = 0
  · have h2 := hp0 hp
    subst h2
    rw [if_pos hp] at hval
    obtain ⟨heap3, p3, hm3, hcore3, _, _, _⟩ := virtual_malloc_inv hf2 hMK hK32 hS (2 ^ a.2)
    change virtual_malloc heap2 (2 ^ a.2) true = some (heap3, p3) at hm3
    change Core K M S ⟨heap3, if p3 = 0 then drop_live s.live a.1
      else (p3, req_order heap2 (2 ^ a.2)) :: drop_live s.live a.1⟩ at hcore3
    rw [hm3] at hval
    simp only at hval
    by_cases hap : a.1 = p3
    · rw [if_pos hap] at hval
      obtain ⟨h1, h2⟩ := Prod.mk.inj (Option.some.inj hval)
      subst h1; subst h2
      left
      refine ⟨rfl, ?_⟩
      have hM2 : heap2.min_size = M := hf2.hM
      have hro3 : req_order heap2 (2 ^ a.2) = a.2 := by
        simp only [req_order, my_log2_two_pow ha2, hM2]
        rw [if_neg (by omega)]
      rw [if_neg (by rw [← hap]; exact hptr), hro3, ← hap] at hcore3
      have hcore4 : Core K M S ⟨heap3, s.live⟩ :=
        Core_congr hcore3 (mem_cons_drop_live ha hc.nodup) hc.nodup
      exact realloc_finish_ok hcore4 hS
    · rw [if_neg hap] at hval
      exact absurd hval (by simp)
  · rw [if_neg hp] at hval
    obtain ⟨h1, h2⟩ := Prod.mk.inj (Option.some.inj hval)
    subst h1; subst h2
    right
    refine ⟨hp, ?_⟩
    rw [if_neg hp, hro] at hcore2
    exact realloc_finish_ok hcore2 hS

/-- Every valid-use call preserves the invariant. -/
theorem step_Inv {K M S : Nat} {s s1 : alloc_state} (hi : Inv K M S s) (hMK : M ≤ K)
    (hK32 : K < 32) (hS : 0 < S) (op : Op) (h : step s op = some s1) : Inv K M S s1 := by
  have hc := hi.core
  cases op with
  | malloc size =>
    obtain ⟨heap1, p, hm, hcore, h1, h2, _⟩ := virtual_malloc_inv hc hMK hK32 hS size
    simp only [step, hm] at h
    rw [← Option.some.inj h]
    exact ⟨hcore, h1.trans hi.allow, h2.trans hi.tmp⟩
  | free ptr =>
    simp only [step] at h
    by_cases hmem : ptr ∈ s.live.map Prod.fst
    · rw [if_pos hmem] at h
      obtain ⟨a, ha, hp⟩ := List.mem_map.mp hmem
      subst hp
      obtain ⟨hf1, hf2, hf3, hf4⟩ := virtual_free_ok hc hK32 hS hi.tmp ha
      rw [if_pos hf1] at h
      rw [← Option.some.inj h]
      exact ⟨hf2, hf3.trans hi.allow, hf4 hi.allow⟩
    · rw [if_neg hmem] at h; exact absurd h (by simp)
  | realloc ptr size =>
    simp only [step] at h
    by_cases hmem : ptr ∈ s.live.map Prod.fst
    · rw [if_pos hmem] at h
      obtain ⟨a, ha, hp⟩ := List.mem_map.mp hmem
      subst hp
      obtain ⟨b, hocc⟩ := hc.wf a ha
      have hptr := occupies_ptr_pos hocc hS
      by_cases hsz0 : size = 0
      · subst hsz0
        simp only [virtual_realloc, if_neg hptr, if_true] at h
        rw [← Option.some.inj h]
        obtain ⟨_, hf2, hf3, hf4⟩ := virtual_free_ok hc hK32 hS hi.tmp ha
        exact ⟨hf2, hf3.trans hi.allow, hf4 hi.allow⟩
      · by_cases hlog : my_log2 size ≤ K
        · by_cases hle : req_order s.heap size ≤ a.2
          · obtain ⟨heap1, hv, hinv, _⟩ :=
              virtual_realloc_in_place hi hMK hK32 ha hS hsz0 hlog hle
            rw [hv] at h
            simp only [if_neg hsz0, if_neg hptr] at h
            rw [← Option.some.inj h]
            exact hinv
          · cases hv : virtual_realloc s.heap a.1 size true with
            | none => rw [hv] at h; exact absurd h (by simp)
            | some r =>
              obtain ⟨heap1, q⟩ := r
              rw [hv] at h
              simp only [if_neg hsz0] at h
              rw [← Option.some.inj h]
              rcases virtual_realloc_grow hi hMK hK32 ha hS hsz0 hlog (Nat.lt_of_not_le hle) hv
                with ⟨hq, hinv⟩ | ⟨hq, hinv⟩
              · rw [if_pos hq]; exact hinv
              · rw [if_neg hq]; exact hinv
        · have hv : virtual_realloc s.heap a.1 size true = some (s.heap, 0) := by
            simp only [virtual_realloc, if_neg hptr, if_neg hsz0, hc.hK]
            rw [if_pos (Nat.lt_of_not_le hlog)]
          rw [hv] at h
          simp only [if_neg hsz0, if_true] at h
          rw [← Option.some.inj h]
          exact hi
    · rw [if_neg hmem] at h; exact absurd h (by simp)


/-! ## The invariant holds in every reachable state -/

theorem init_Inv (heapstart K M : Nat) :
    Inv K M (init_allocator heapstart K M).start (init_state heapstart K M) := by
  refine ⟨⟨rfl, rfl, rfl, rfl, ?_, ?_, ?_, ?_, le_refl _, Or.inl rfl, ?_, ?_, ?_, ?_⟩,
    rfl, rfl⟩
  · intro a ha; exact absurd ha (List.not_mem_nil a)
  · exact List.nodup_nil
  · rintro n m ⟨a, ha, _⟩; exact absurd ha (List.not_mem_nil a)
  · intro i
    constructor
    · intro h; exact absurd h (by simp [init_state, init_allocator])
    · rintro ⟨n, ⟨a, ha, _⟩, _⟩; exact absurd ha (List.not_mem_nil a)
  · intro _; exact Or.inr ⟨rfl, rfl⟩
  · intro h; exact absurd rfl h
  · intro h; exact absurd rfl h
  · intro h; exact absurd rfl h

theorem init_start_pos (heapstart K M : Nat) : 0 < (init_allocator heapstart K M).start := by
  simp only [init_allocator, sizeof_heap_t]
  exact Nat.lt_of_lt_of_le (by decide : 0 < 40)
    (Nat.le_trans (Nat.le_add_right _ _) (Nat.le_add_left _ _))

theorem reachable_Inv {heapstart K M : Nat} (hMK : M ≤ K) (hK32 : K < 32) {s : alloc_state}
    (hr : Reachable heapstart K M s) : Inv K M (init_allocator heapstart K M).start s := by
  induction hr with
  | init => exact init_Inv heapstart K M
  | step op _ hstep ih => exact step_Inv ih hMK hK32 (init_start_pos _ _ _) op hstep

theorem reachable_run {heapstart K M : Nat} (ops : List Op) : ∀ {s s1 : alloc_state},
    Reachable heapstart K M s → run s ops = some s1 → Reachable heapstart K M s1 := by
  induction ops with
  | nil =>
    intro s s1 hr h
    simp only [run] at h
    exact (Option.some.inj h) ▸ hr
  | cons op ops ih =>
    intro s s1 hr h
    simp only [run] at h
    cases hs : step s op with
    | none => rw [hs] at h; exact absurd h (by simp)
    | some s2 =>
      rw [hs] at h
      exact ih (Reachable.step op hr hs) h

theorem reachable_state_after (heapstart K M : Nat) (ops : List Op) :
    Reachable heapstart K M (state_after heapstart K M ops) := by
  simp only [state_after]
  cases h : run (init_state heapstart K M) ops with
  | none => exact Reachable.init
  | some s => exact reachable_run ops Reachable.init h

/-! ## Blocks and allocations -/

theorem occupies_iff_sits_at {K M S : Nat} {heap : heap_t} (hK : heap.initial_size = K)
    (hN : heap.num_blocks = 2 ^ (K - M + 1) - 1) (hS : heap.start = S) (hMK : M ≤ K)
    (hK32 : K < 32) (a : Nat × Nat) (n : Nat) : occupies K M S a n ↔ sits_at heap a n := by
  constructor
  · rintro ⟨d, j, hj, hd, hr, hp, hn⟩
    subst hn
    refine ⟨by rw [hN]; exact (node_lt_iff hj).mpr (by omega), ?_, ?_⟩
    · rw [block_to_ptr_node heap hj (by omega) (by omega), hK, hS, hp]
      congr 3; omega
    · rw [block_sz_node heap hj (by omega) (by omega), hK]; omega
  · rintro ⟨hlt, hp, hsz⟩
    obtain ⟨d, j, hj, hn⟩ := exists_node n
    subst hn
    rw [hN] at hlt
    have hd : d ≤ K - M := (node_lt_iff hj).mp hlt
    rw [block_sz_node heap hj (by omega) (by omega), hK] at hsz
    rw [block_to_ptr_node heap hj (by omega) (by omega), hK, hS] at hp
    refine ⟨d, j, hj, by omega, by omega, ?_, rfl⟩
    rw [← hp, ← hsz]

/-- In a state that satisfies the invariant, a live pointer resolves to the block
of its allocation, and that block is marked and not split. -/
theorem resolve_live {K M S : Nat} {s : alloc_state} (hc : Core K M S s) (hMK : M ≤ K)
    (hK32 : K < 32) {a : Nat × Nat} (ha : a ∈ s.live) :
    sits_at s.heap a (ptr_to_block s.heap a.1) ∧
      is_allocation s.heap (ptr_to_block s.heap a.1) ∧
      occupies K M S a (ptr_to_block s.heap a.1) := by
  obtain ⟨b, hocc⟩ := hc.wf a ha
  obtain ⟨hres, hlt, hset, hclear⟩ := ptr_to_block_live hc hK32 ha hocc
  rw [hres]
  refine ⟨(occupies_iff_sits_at hc.hK hc.hN hc.hS hMK hK32 a b).mp hocc, ⟨hset, ?_⟩, hocc⟩
  by_cases hleaf : s.heap.num_blocks ≤ LEFT b
  · exact Or.inl hleaf
  · right
    refine ⟨hclear (Nat.lt_of_not_le hleaf), ?_⟩
    cases hs : s.heap.status (LEFT b + 1) with
    | false => rfl
    | true =>
      exfalso
      obtain ⟨n, hn, han⟩ := (hc.rep _).mp hs
      have hbn := hc.anti b n ⟨a, ha, hocc⟩ hn (anc_trans (anc_RIGHT b) han)
      subst hbn
      have := anc_le han
      simp only [LEFT] at this; omega


/-! ## Claims on the reachable states -/

/-- The order that `virtual_malloc` and `virtual_realloc` compute for a size of
at most `2^31` is `max(M, ceil_log2(size))`. -/
theorem req_order_eq_max (heap : heap_t) {M size : Nat} (hM : heap.min_size = M)
    (h : size ≤ 2 ^ 31) : req_order heap size = max M (Nat.clog 2 size) := by
  simp only [req_order, hM, my_log2_eq_clog h]
  split <;> omega

/-- Supporting lemma for C4: for `M ≤ K < 32` and `K - M + 1 < 31`, in every
state reached by valid-use calls a live
pointer resolves through `ptr_to_block` to a block of the tree whose bit is set,
that is a leaf or has two clear children, whose address is the pointer and whose
order is the order of the allocation. -/
theorem live_pointer_resolves (heapstart K M : Nat) (hMK : M ≤ K)
    (hsh : K < 32 ∧ K - M + 1 < 31)
    (s : alloc_state) (hr : Reachable heapstart K M s) (a : Nat × Nat) (ha : a ∈ s.live) :
    sits_at s.heap a (ptr_to_block s.heap a.1) ∧ is_allocation s.heap (ptr_to_block s.heap a.1) :=
  have hK32 : K < 32 := hsh.1
  ⟨(resolve_live (reachable_Inv hMK hK32 hr).core hMK hK32 ha).1,
    (resolve_live (reachable_Inv hMK hK32 hr).core hMK hK32 ha).2.1⟩

/-! ## Defects of the code, evaluated at concrete inputs -/

/-- C3 (defect): with `K = 15`, `M = 12` the valid-use run
`p = virtual_malloc(4096); virtual_realloc(p, 8192)` succeeds and returns the
block `[start, start + 8192)`, but the deferred shrink then sets
`cur_break = start`: the live block lies above the break. -/
theorem realloc_grow_leaves_block_above_break :
    (run (init_state 4053 15 12) [Op.malloc 4096, Op.realloc 4096 8192]).isSome = true ∧
    (state_after 4053 15 12 [Op.malloc 4096, Op.realloc 4096 8192]).live = [(4096, 13)] ∧
    (state_after 4053 15 12 [Op.malloc 4096, Op.realloc 4096 8192]).heap.start = 4096 ∧
    (state_after 4053 15 12 [Op.malloc 4096, Op.realloc 4096 8192]).heap.cur_break = 4096 ∧
    ¬ (4096 + 2 ^ 13
        ≤ (state_after 4053 15 12 [Op.malloc 4096, Op.realloc 4096 8192]).heap.cur_break) := by
  decide

/-- C4 (defect, the one of C8): with `K = 15`, `M = 12` the call
`virtual_malloc(2^31 + 1)` returns a live pointer that resolves to block `7` of
order `12`, not of order `max(M, ceil_log2(2^31 + 1)) = 32`. -/
theorem oversize_pointer_resolves_to_min_block :
    (state_after 4053 15 12 [Op.malloc 2147483649]).live = [(4096, 12)] ∧
    ptr_to_block (state_after 4053 15 12 [Op.malloc 2147483649]).heap 4096 = 7 ∧
    block_sz (state_after 4053 15 12 [Op.malloc 2147483649]).heap 7 = 12 ∧
    block_sz (state_after 4053 15 12 [Op.malloc 2147483649]).heap 7
      ≠ max 12 (Nat.clog 2 2147483649) := by
  refine ⟨by decide, by decide, by decide, ?_⟩
  have h1 : block_sz (state_after 4053 15 12 [Op.malloc 2147483649]).heap 7 = 12 := by decide
  have h2 : ¬ Nat.clog 2 2147483649 ≤ 12 := by
    rw [← Nat.le_pow_iff_clog_le (by decide)]
    decide
  rw [h1]
  omega

/-- C5 (defect): with `K = 15`, `M = 12`, after
`a = virtual_malloc(4096); virtual_malloc(4096); virtual_free(a)` the pointer `a`
is not live, yet a second `virtual_free(a)` returns `0` and clears the bits of
blocks `3`, `1` and `0`, which are ancestors of the block `8` that is still live. -/
theorem double_free_is_not_rejected :
    (run (init_state 4053 15 12) [Op.malloc 4096, Op.malloc 4096, Op.free 4096]).isSome = true ∧
    (state_after 4053 15 12 [Op.malloc 4096, Op.malloc 4096, Op.free 4096]).live
      = [(8192, 12)] ∧
    block_status (state_after 4053 15 12 [Op.malloc 4096, Op.malloc 4096, Op.free 4096]).heap 0
      = true ∧
    (virtual_free
      (state_after 4053 15 12 [Op.malloc 4096, Op.malloc 4096, Op.free 4096]).heap 4096).2
        = 0 ∧
    block_status (virtual_free
      (state_after 4053 15 12 [Op.malloc 4096, Op.malloc 4096, Op.free 4096]).heap 4096).1 0
        = false ∧
    block_status (virtual_free
      (state_after 4053 15 12 [Op.malloc 4096, Op.malloc 4096, Op.free 4096]).heap 4096).1 8
        = true := by
  decide

/-- C8 (defect): `my_log2` returns `0` for every size above `2^31`, so with
`K = 15`, `M = 12` the call `virtual_malloc(2^31 + 1)` on the fresh heap does not
return `NULL`: it returns `start` and marks the blocks `0`, `1`, `3`, `7`. -/
theorem malloc_accepts_size_above_two_pow_31 :
    2 ^ 15 < 2147483649 ∧ 2147483649 < 2 ^ 32 ∧ my_log2 2147483649 = 0 ∧
    (virtual_malloc (init_allocator 4053 15 12) 2147483649 true).map Prod.snd = some 4096 ∧
    (virtual_malloc (init_allocator 4053 15 12) 2147483649 true).map
      (fun r => (r.1.status 0, r.1.status 7, r.1.cur_break)) = some (true, true, 8192) := by
  decide

/-- Supporting lemma for C8: for `size = 0` and for `2^K < size ≤ 2^31` the call
returns `NULL` and leaves the heap untouched, in every state. -/
theorem malloc_rejects_out_of_range (heap : heap_t) (size : Nat)
    (h : size = 0 ∨ (2 ^ heap.initial_size < size ∧ size ≤ 2 ^ 31)) :
    virtual_malloc heap size true = some (heap, 0) := by
  rcases h with h | ⟨h1, h2⟩
  · simp [virtual_malloc, h]
  · have hpos : size ≠ 0 := by
      have := two_pow_pos_nat heap.initial_size; omega
    have hlog : my_log2 size > heap.initial_size := by
      rw [my_log2_eq_clog h2]
      by_contra hle
      exact absurd ((Nat.le_pow_iff_clog_le (by decide)).mpr (Nat.le_of_not_lt hle))
        (Nat.not_le.mpr h1)
    simp only [virtual_malloc, if_neg hpos, if_pos hlog]


/-! ## `virtual_malloc` fails only when no block fits -/

theorem node_pos_of_depth {d j : Nat} (hd : 1 ≤ d) : 0 < node d j := by
  obtain ⟨d0, rfl⟩ : ∃ d0, d = d0 + 1 := ⟨d - 1, by omega⟩
  exact node_succ_pos d0 j

/-- C20: for `M ≤ K < 32` and a block `i < num_blocks` at depth `d`
(`2^d - 1 ≤ i < 2^(d+1) - 1`): `block_sz i = K - d` and the offset of `i` is
`(i - (2^d - 1)) * 2^(K-d)`. Hence the blocks of order `r` are the index range
`[2^(K-r) - 1, 2^(K-r+1) - 1)`; in index order they tile `[0, 2^K)` (the first
starts at offset `0`, each next one starts where the previous one ends, the last
one ends at `2^K`); the left child starts at the offset of its parent and the
right child half the size of the parent later. -/
theorem index_arithmetic_closed_form (heap : heap_t) (K M : Nat) (hK : heap.initial_size = K)
    (hN : heap.num_blocks = 2 ^ (K - M + 1) - 1) (hMK : M ≤ K) (hK32 : K < 32) (i d : Nat)
    (hi : i < heap.num_blocks) (hd1 : 2 ^ d - 1 ≤ i) (hd2 : i < 2 ^ (d + 1) - 1) :
    (block_sz heap i = K - d ∧
      block_to_ptr heap i - heap.start = (i - (2 ^ d - 1)) * 2 ^ (K - d) ∧ d + M ≤ K) ∧
    (∀ r, r ≤ K → (block_sz heap i = r ↔ 2 ^ (K - r) - 1 ≤ i ∧ i < 2 ^ (K - r + 1) - 1)) ∧
    (i = 2 ^ d - 1 → block_to_ptr heap i = heap.start) ∧
    (i + 1 < 2 ^ (d + 1) - 1 → block_to_ptr heap (i + 1) = block_to_ptr heap i + 2 ^ (K - d)) ∧
    (i + 1 = 2 ^ (d + 1) - 1 → block_to_ptr heap i + 2 ^ (K - d) = heap.start + 2 ^ K) ∧
    (LEFT i < heap.num_blocks →
      block_to_ptr heap (LEFT i) = block_to_ptr heap i ∧
      block_to_ptr heap (LEFT i + 1) = block_to_ptr heap i + 2 ^ (K - d) / 2) := by
  have hpd := two_pow_pos_nat d
  have hj : i - (2 ^ d - 1) < 2 ^ d := by rw [pow_succ] at hd2; omega
  have hnode : i = node d (i - (2 ^ d - 1)) := by simp only [node]; omega
  generalize i - (2 ^ d - 1) = j at hj hnode ⊢
  subst hnode
  rw [hN] at hi
  have hdM : d ≤ K - M := (node_lt_iff hj).mp hi
  have hsz : block_sz heap (node d j) = K - d := by
    rw [block_sz_node heap hj (by omega) (by omega), hK]
  have hptr : ∀ {d1 j1 : Nat}, j1 < 2 ^ d1 → d1 ≤ K →
      block_to_ptr heap (node d1 j1) = heap.start + j1 * 2 ^ (K - d1) := by
    intro d1 j1 h1 h2
    rw [block_to_ptr_node heap h1 (by omega) (by omega), hK]
  refine ⟨⟨hsz, by rw [hptr hj (by omega)]; omega, by omega⟩, ?_, ?_, ?_, ?_, ?_⟩
  · intro r hr
    rw [hsz]
    constructor
    · intro h
      have hdr : d = K - r := by omega
      subst hdr
      exact ⟨hd1, hd2⟩
    · rintro ⟨h1, h2⟩
      have hp := two_pow_pos_nat (K - r)
      have hj' : node d j - (2 ^ (K - r) - 1) < 2 ^ (K - r) := by rw [pow_succ] at h2; omega
      have hn' : node d j = node (K - r) (node d j - (2 ^ (K - r) - 1)) := by
        simp only [node] at h1 ⊢; omega
      have := (node_inj hj hj' hn').1
      omega
  · intro h
    have hj0 : j = 0 := by simp only [node] at h; omega
    rw [hptr hj (by omega), hj0]; simp
  · intro h
    have hj1 : j + 1 < 2 ^ d := by simp only [node, pow_succ] at h; omega
    have hn1 : node d j + 1 = node d (j + 1) := by simp only [node]; omega
    rw [hn1, hptr hj1 (by omega), hptr hj (by omega), Nat.add_mul]; omega
  · intro h
    have hj1 : j + 1 = 2 ^ d := by simp only [node, pow_succ] at h; omega
    have hKd : 2 ^ K = 2 ^ d * 2 ^ (K - d) := by rw [← pow_add]; congr 1; omega
    rw [hptr hj (by omega), hKd, ← hj1, Nat.add_mul]; omega
  · intro h
    rw [LEFT_node, hN] at h
    have hj2 : 2 * j < 2 ^ (d + 1) := by rw [pow_succ]; omega
    have hd1M : d + 1 ≤ K - M := (node_lt_iff hj2).mp h
    have hhalf : 2 ^ (K - d) = 2 * 2 ^ (K - (d + 1)) := by
      rw [← pow_succ']; congr 1; omega
    have hr : node (d + 1) (2 * j) + 1 = node (d + 1) (2 * j + 1) := by
      simp only [node]; omega
    rw [LEFT_node, hr, hptr hj2 (by omega),
      hptr (by rw [pow_succ]; omega : 2 * j + 1 < 2 ^ (d + 1)) (by omega), hptr hj (by omega),
      hhalf]
    constructor
    · ring
    · have : 2 * 2 ^ (K - (d + 1)) / 2 = 2 ^ (K - (d + 1)) := by omega
      rw [this]; ring

theorem index_arithmetic_closed_form_witness :
    (init_allocator 4053 15 12).initial_size = 15 ∧
    (init_allocator 4053 15 12).num_blocks = 2 ^ (15 - 12 + 1) - 1 ∧ 12 ≤ 15 ∧ 15 < 32 ∧
    4 < (init_allocator 4053 15 12).num_blocks ∧ 2 ^ 2 - 1 ≤ 4 ∧ 4 < 2 ^ (2 + 1) - 1 ∧
    block_sz (init_allocator 4053 15 12) 4 = 15 - 2 ∧
    block_to_ptr (init_allocator 4053 15 12) 4 - (init_allocator 4053 15 12).start
      = (4 - (2 ^ 2 - 1)) * 2 ^ (15 - 2) ∧ 2 + 12 ≤ 15 :=
  ⟨rfl, rfl, by decide, by decide, by decide, by decide, by decide,
    (index_arithmetic_closed_form (init_allocator 4053 15 12) 15 12 rfl rfl (by decide)
      (by decide) 4 2
      (by decide) (by decide) (by decide)).1⟩

/-! ## The search order of `find_fit` -/

/-- C18: for every bitmap and every order `sz` with `M ≤ sz ≤ K`, `find_fit`
returns (its `assert` holds and its recursion ends): the clear member of the
lowest-indexed sibling pair with different status bits at the smallest order
`o`, `sz ≤ o < K`, that has such a pair, and `0` when no order in `[sz, K)` has
one (`find_fit_spec`, with depth `d = K - o`); every index `i`, `i + 1` that the
scan of an order `o` in `[sz, K]` reads is below `num_blocks`. -/
theorem find_fit_first_fit (heap : heap_t) (K M sz : Nat) (hK : heap.initial_size = K)
    (hN : heap.num_blocks = 2 ^ (K - M + 1) - 1) (hM : M ≤ sz) (hsz : sz ≤ K) :
    (∃ f, find_fit heap sz = some f ∧ find_fit_spec heap K sz f) ∧
    (∀ o i, sz ≤ o → o ≤ K → 2 ^ (K - o) - 1 ≤ i → i < 2 * (2 ^ (K - o) - 1) →
      i + 1 < heap.num_blocks) := by
  refine ⟨find_fit_eq heap hK hN hM hsz, ?_⟩
  intro o i ho1 ho2 _ hi
  have h1 : 2 ^ (K - o) ≤ 2 ^ (K - M) := Nat.pow_le_pow_right (by decide) (by omega)
  rw [hN, pow_succ]
  omega

theorem find_fit_first_fit_witness :
    (state_after 4053 15 12 [Op.malloc 8000]).heap.initial_size = 15 ∧
    (state_after 4053 15 12 [Op.malloc 8000]).heap.num_blocks = 2 ^ (15 - 12 + 1) - 1 ∧
    12 ≤ 12 ∧ 12 ≤ 15 ∧
    find_fit (state_after 4053 15 12 [Op.malloc 8000]).heap 12 = some 4 ∧
    ∃ f, find_fit (state_after 4053 15 12 [Op.malloc 8000]).heap 12 = some f ∧
      find_fit_spec (state_after 4053 15 12 [Op.malloc 8000]).heap 15 12 f :=
  ⟨by decide, by decide, by decide, by decide, by decide,
    (find_fit_first_fit (state_after 4053 15 12 [Op.malloc 8000]).heap 15 12 12 (by decide)
      (by decide) (by decide) (by decide)).1⟩


/-! ## Defects and corrections, evaluated at concrete inputs -/

/-- C11 (defect): with `K = 15`, `M = 12`, after
`a = virtual_malloc(4096); virtual_malloc(4096); virtual_free(a)` the pointer `a`
is the start of an already-freed block, yet `virtual_realloc(a, 4096)` takes the
split path without any validity check: it returns `a`, not `NULL`, and marks
block `7` again. -/
theorem realloc_accepts_freed_pointer :
    (run (init_state 4053 15 12) [Op.malloc 4096, Op.malloc 4096, Op.free 4096]).isSome = true ∧
    (state_after 4053 15 12 [Op.malloc 4096, Op.malloc 4096, Op.free 4096]).live
      = [(8192, 12)] ∧
    block_status (state_after 4053 15 12 [Op.malloc 4096, Op.malloc 4096, Op.free 4096]).heap 7
      = false ∧
    (virtual_realloc
      (state_after 4053 15 12 [Op.malloc 4096, Op.malloc 4096, Op.free 4096]).heap
      4096 4096 true).map Prod.snd = some 4096 ∧
    (virtual_realloc
      (state_after 4053 15 12 [Op.malloc 4096, Op.malloc 4096, Op.free 4096]).heap
      4096 4096 true).map (fun r => block_status r.1 7) = some true := by
  decide

/-- C12 (defect): with `K = 15`, `M = 12`, after eight `virtual_malloc(4096)` and
`virtual_free(start + 4096)`, the call `virtual_realloc(start + 16384, 8192)`
takes the grow path, its inner `virtual_malloc(8192)` returns `NULL`, and the
recovery `virtual_malloc(4096)` returns `start + 4096`, not the original pointer
`start + 16384`: the `assert` of `virtual_realloc` fails. -/
theorem realloc_recovery_returns_other_block :
    (run (init_state 4053 15 12)
      (List.replicate 8 (Op.malloc 4096) ++ [Op.free 8192])).isSome = true ∧
    ((20480, 12) : Nat × Nat) ∈
      (state_after 4053 15 12 (List.replicate 8 (Op.malloc 4096) ++ [Op.free 8192])).live ∧
    (virtual_malloc
      (virtual_free
        { (state_after 4053 15 12
            (List.replicate 8 (Op.malloc 4096) ++ [Op.free 8192])).heap with
          allow_shrink := false } 20480).1 8192 true).map Prod.snd = some 0 ∧
    (virtual_malloc
      (virtual_free
        { (state_after 4053 15 12
            (List.replicate 8 (Op.malloc 4096) ++ [Op.free 8192])).heap with
          allow_shrink := false } 20480).1 4096 true).map Prod.snd = some 8192 ∧
    (virtual_realloc
      (state_after 4053 15 12 (List.replicate 8 (Op.malloc 4096) ++ [Op.free 8192])).heap
      20480 8192 true).isNone = true := by
  decide

/-- C14 (defect): with `K = 15`, `M = 12`, after three `virtual_malloc(8000)` and
`virtual_free` of the third block, `last_used_block = 0 < num_blocks` but
`cur_break = start + 24576`, not `start + offset_of(0) + 2^block_sz(0)
= start + 32768`. -/
theorem watermark_differs_from_last_used_block :
    (run (init_state 4053 15 12)
      [Op.malloc 8000, Op.malloc 8000, Op.malloc 8000, Op.free 20480]).isSome = true ∧
    (state_after 4053 15 12
      [Op.malloc 8000, Op.malloc 8000, Op.malloc 8000, Op.free 20480]).heap.last_used_block
        = 0 ∧
    (state_after 4053 15 12
      [Op.malloc 8000, Op.malloc 8000, Op.malloc 8000, Op.free 20480]).heap.cur_break
        = 4096 + 24576 ∧
    block_to_ptr (state_after 4053 15 12
      [Op.malloc 8000, Op.malloc 8000, Op.malloc 8000, Op.free 20480]).heap 0
      + 2 ^ block_sz (state_after 4053 15 12
      [Op.malloc 8000, Op.malloc 8000, Op.malloc 8000, Op.free 20480]).heap 0
        = 4096 + 32768 := by
  decide

/-- C15 (defect, the one of C14): with `K = 15`, `M = 12`, after three
`virtual_malloc(8000)` the call `virtual_free` of the third (trailing) block
leaves `cur_break = start + 24576`, while the largest end offset of the two live
allocations is `16384`: the region does not shrink. -/
theorem free_of_trailing_block_does_not_shrink :
    (run (init_state 4053 15 12)
      [Op.malloc 8000, Op.malloc 8000, Op.malloc 8000, Op.free 20480]).isSome = true ∧
    (state_after 4053 15 12
      [Op.malloc 8000, Op.malloc 8000, Op.malloc 8000, Op.free 20480]).live
        = [(12288, 13), (4096, 13)] ∧
    (state_after 4053 15 12
      [Op.malloc 8000, Op.malloc 8000, Op.malloc 8000, Op.free 20480]).heap.start = 4096 ∧
    (state_after 4053 15 12
      [Op.malloc 8000, Op.malloc 8000, Op.malloc 8000, Op.free 20480]).heap.cur_break
        = 4096 + 24576 ∧
    (state_after 4053 15 12
      [Op.malloc 8000, Op.malloc 8000, Op.malloc 8000, Op.free 20480]).heap.cur_break
        ≠ 4096 + 16384 := by
  decide

/-- C17 (counterexample): with `K = 15`, `M = 12`, after
`a = virtual_malloc(8000); virtual_malloc(10000); virtual_free(a)` the dump is not
`free 8192`, `allocated 8192`, `allocated 16384`. -/
theorem scenario_dump_is_not_three_lines :
    virtual_info (state_after 4053 15 12 [Op.malloc 8000, Op.malloc 10000, Op.free 4096]).heap
      ≠ [info_line.free 8192, info_line.allocated 8192, info_line.allocated 16384] := by
  decide

/-- C17 (amended): with `K = 15`, `M = 12`, after
`a = virtual_malloc(8000); virtual_malloc(10000); virtual_free(a)` (a valid-use
run) the freed block has coalesced with its free buddy and the dump is the two
lines `free 16384`, `allocated 16384`. -/
theorem scenario_dump_after_free :
    (run (init_state 4053 15 12) [Op.malloc 8000, Op.malloc 10000, Op.free 4096]).isSome = true ∧
    virtual_info (state_after 4053 15 12 [Op.malloc 8000, Op.malloc 10000, Op.free 4096]).heap
      = [info_line.free 16384, info_line.allocated 16384] := by
  decide


/-! ## The block chosen by `virtual_malloc` -/

/-- C16 (counterexample): with `K = 15`, `M = 12`, after five
`virtual_malloc(4096)` and `virtual_free` of the first four blocks, the only
live allocation is at offset `16384`; the order-12 block `7` at offset `0` is
available, but `virtual_malloc(4096)` returns the block at offset `20480`. -/
theorem malloc_skips_lowest_available_block :
    (run (init_state 4053 15 12) (List.replicate 5 (Op.malloc 4096) ++
      [Op.free 4096, Op.free 8192, Op.free 12288, Op.free 16384])).isSome = true ∧
    block_available (state_after 4053 15 12 (List.replicate 5 (Op.malloc 4096) ++
      [Op.free 4096, Op.free 8192, Op.free 12288, Op.free 16384])) 7 ∧
    block_sz (state_after 4053 15 12 (List.replicate 5 (Op.malloc 4096) ++
      [Op.free 4096, Op.free 8192, Op.free 12288, Op.free 16384])).heap 7 = 12 ∧
    block_to_ptr (state_after 4053 15 12 (List.replicate 5 (Op.malloc 4096) ++
      [Op.free 4096, Op.free 8192, Op.free 12288, Op.free 16384])).heap 7 = 4096 + 0 ∧
    (virtual_malloc (state_after 4053 15 12 (List.replicate 5 (Op.malloc 4096) ++
      [Op.free 4096, Op.free 8192, Op.free 12288, Op.free 16384])).heap 4096 true).map Prod.snd
      = some (4096 + 20480) := by
  refine ⟨by decide, ⟨by decide, ?_⟩, by decide, by decide, by decide⟩
  have hl : (state_after 4053 15 12 (List.replicate 5 (Op.malloc 4096) ++
      [Op.free 4096, Op.free 8192, Op.free 12288, Op.free 16384])).live = [(20480, 12)] := by
    decide
  intro a ha
  rw [hl, List.mem_singleton] at ha
  subst ha
  exact Or.inl (by decide)

/-- C16 (amended): for `M ≤ K < 32` and `K - M + 1 < 31` (the shift count of the `int`
expression `1 << (initial_size - min_size + 1)` of `init_allocator`), in every state reached by valid-use calls and for
`1 ≤ size ≤ 2^K`, with `r = max(M, ceil_log2(size))`, a `virtual_malloc` that
succeeds returns the starting address of a maximal free block `f` (clear, and
the root or the sibling of a marked block) of order at least `r` such that every
maximal free block of order at least `r` has a larger order than `f`, or the
same order and an address that is not below the address of `f`: best fit first,
lowest address among the maximal free blocks of the best order. -/
theorem malloc_returns_best_fit_lowest_address (heapstart K M : Nat) (hMK : M ≤ K)
    (hsh : K < 32 ∧ K - M + 1 < 31) (s : alloc_state) (hr : Reachable heapstart K M s)
    (size : Nat)
    (h1 : 1 ≤ size) (h2 : size ≤ 2 ^ K) :
    ∃ heap1 p, virtual_malloc s.heap size true = some (heap1, p) ∧
      (p ≠ 0 → ∃ f, maximal_free s.heap f ∧ max M (Nat.clog 2 size) ≤ block_sz s.heap f ∧
        p = block_to_ptr s.heap f ∧
        ∀ n, maximal_free s.heap n → max M (Nat.clog 2 size) ≤ block_sz s.heap n →
          block_sz s.heap f < block_sz s.heap n ∨
          (block_sz s.heap f = block_sz s.heap n ∧
            block_to_ptr s.heap f ≤ block_to_ptr s.heap n)) := by
  have hK32 : K < 32 := hsh.1
  have hi := reachable_Inv hMK hK32 hr
  have hc := hi.core
  have h31 : size ≤ 2 ^ 31 :=
    Nat.le_trans h2 (Nat.pow_le_pow_right (by decide) (by omega))
  have hlog : my_log2 size ≤ K := by
    rw [my_log2_eq_clog h31]; exact (Nat.le_pow_iff_clog_le (by decide)).mp h2
  have hro := req_order_eq_max s.heap hc.hM h31
  obtain ⟨hr1, hr2⟩ := req_order_bounds s.heap hc.hM hMK hlog
  obtain ⟨f, hspec, hcase⟩ := virtual_malloc_ok hc hMK hK32 (by omega : size ≠ 0) hlog
  rw [hro] at hspec hcase hr1 hr2
  generalize max M (Nat.clog 2 size) = r at hspec hcase hr1 hr2 ⊢
  have hKi : s.heap.initial_size < 32 := by rw [hc.hK]; exact hK32
  have hsz : ∀ {d j : Nat}, j < 2 ^ d → d ≤ K → block_sz s.heap (node d j) = K - d := by
    intro d j hj hd
    rw [block_sz_node s.heap hj (by rw [hc.hK]; exact hd) (by omega), hc.hK]
  have hpt : ∀ {d j : Nat}, j < 2 ^ d → d ≤ K →
      block_to_ptr s.heap (node d j) = s.heap.start + j * 2 ^ (K - d) := by
    intro d j hj hd
    rw [block_to_ptr_node s.heap hj (by rw [hc.hK]; exact hd) hKi, hc.hK]
  rcases hcase with ⟨_, _, hval⟩ | ⟨hrej, d, j, heap1, hf, hj, hd, hval, _⟩
  · exact ⟨s.heap, 0, hval, fun h => absurd rfl h⟩
  · refine ⟨heap1, _, hval, fun _ => ⟨f, ?_, ?_, ?_, ?_⟩⟩
    · obtain ⟨d', j', hf', hj', hd', hclear, hbud⟩ := fit_block hspec hr2 hrej
      exact ⟨by rw [hc.hN, hf']; exact (node_lt_iff hj').mpr (by omega), hclear, hbud⟩
    · rw [hf, hsz hj (by omega)]; omega
    · rw [hf, hpt hj (by omega), hc.hS]
    · rintro n ⟨hn, hnclear, hnbud⟩ hnord
      obtain ⟨e, i, hi, hne⟩ := exists_node n
      subst hne
      have heK : e + M ≤ K := by
        have := (node_lt_iff hi).mp (hc.hN ▸ hn)
        omega
      rw [hsz hi (by omega)] at hnord
      rw [hsz hi (by omega), hpt hi (by omega)]
      -- the pair of `node e i` has different bits unless `e = 0`
      have hpair : 1 ≤ e → ¬ pair_eq s.heap e (i / 2) := by
        intro he
        obtain ⟨e0, rfl⟩ : ∃ e0, e = e0 + 1 := ⟨e - 1, by omega⟩
        have hb : s.heap.status (buddy_of (node (e0 + 1) i)) = true := by
          rcases hnbud with h0 | hb
          · exact absurd h0 (Nat.ne_of_gt
              (node_pos_of_depth (Nat.succ_le_succ (Nat.zero_le e0))))
          · exact hb
        simp only [pair_eq]
        rcases Nat.mod_two_eq_zero_or_one i with hev | hod
        · have hi2 : i = 2 * (i / 2) := by omega
          rw [hi2, buddy_of_node_even] at hb
          rw [hi2] at hnclear
          rw [hnclear, hb]; exact Bool.false_ne_true
        · have hi2 : i = 2 * (i / 2) + 1 := by omega
          rw [hi2, buddy_of_node_odd] at hb
          rw [hi2] at hnclear
          rw [hnclear, hb]; exact fun h => Bool.false_ne_true h.symm
      rcases hspec with ⟨hf0, hall⟩ | ⟨d1, k, hd1, hd2, hk, hne, hfk, hlow, hdeep⟩
      · -- the root is chosen: no pair of an order in `[r, K)` has different bits
        have he0 : e = 0 := by
          by_contra he
          exact hpair (by omega)
            (hall e (i / 2) (by omega) (by omega) (by
              have : 2 ^ e = 2 * 2 ^ (e - 1) := by
                rw [← pow_succ']; congr 1; omega
              omega))
        subst he0
        have hi0 : i = 0 := by simpa using hi
        subst hi0
        rw [hf0, ← node_zero, hsz (by simp) (by omega), hpt (by simp) (by omega)]
        right; exact ⟨rfl, le_refl _⟩
      · -- a member of pair `k` at depth `d1` is chosen
        have hfd : f = node d1 (2 * k) ∨ f = node d1 (2 * k + 1) := by
          rw [hfk]; simp only [free_of_pair]; split
          · exact Or.inl rfl
          · exact Or.inr rfl
        have hfsz : block_sz s.heap f = K - d1 := by
          rcases hfd with h | h <;> rw [h] <;> exact hsz (by omega) (by omega)
        rw [hfsz]
        by_cases he0 : e = 0
        · left; omega
        · have hpe := hpair (by omega)
          have hi2 : 2 * (i / 2) + 1 < 2 ^ e := by
            have : 2 ^ e = 2 * 2 ^ (e - 1) := by
              rw [← pow_succ']; congr 1; omega
            omega
          have hed : e ≤ d1 := by
            by_contra hlt
            exact hpe (hdeep e (i / 2) (by omega) (by omega) hi2)
          rcases Nat.lt_or_eq_of_le hed with hlt | heq
          · left; omega
          · right
            subst heq
            refine ⟨rfl, ?_⟩
            have hk2 : k ≤ i / 2 := by
              by_contra hlt
              exact hpe (hlow (i / 2) (by omega))
            rcases Nat.lt_or_eq_of_le hk2 with hlt | heq
            · have hle : ∀ j0, j0 ≤ 2 * k + 1 → s.heap.start + j0 * 2 ^ (K - e)
                  ≤ s.heap.start + i * 2 ^ (K - e) := fun j0 hj0 =>
                Nat.add_le_add_left (Nat.mul_le_mul_right _ (by omega)) _
              rcases hfd with h | h <;> rw [h, hpt (by omega) (by omega)]
              · exact hle _ (by omega)
              · exact hle _ (by omega)
            · -- the same pair: the clear member is `f`
              have hnf : node e i = f := by
                rw [hfk]; simp only [free_of_pair]
                rcases Nat.mod_two_eq_zero_or_one i with hev | hod
                · have hi3 : i = 2 * k := by omega
                  rw [hi3] at hnclear
                  rw [if_pos hnclear, hi3]
                · have hi3 : i = 2 * k + 1 := by omega
                  have hb : s.heap.status (node e (2 * k)) = true := by
                    obtain ⟨e0, rfl⟩ : ∃ e0, e = e0 + 1 := ⟨e - 1, by omega⟩
                    rcases hnbud with h0 | hb
                    · exact absurd h0 (Nat.ne_of_gt
                        (node_pos_of_depth (Nat.succ_le_succ (Nat.zero_le e0))))
                    · rw [hi3, buddy_of_node_odd] at hb; exact hb
                  rw [if_neg (by rw [hb]; exact fun h => Bool.false_ne_true h.symm), hi3]
              rw [← hnf, hpt hi (by omega)]

theorem malloc_returns_best_fit_lowest_address_witness :
    12 ≤ 15 ∧ (15 < 32 ∧ 15 - 12 + 1 < 31) ∧ 1 ≤ 4096 ∧ 4096 ≤ 2 ^ 15 ∧
    ∃ heap1 p, virtual_malloc (state_after 4053 15 12 (List.replicate 5 (Op.malloc 4096) ++
          [Op.free 4096, Op.free 8192, Op.free 12288, Op.free 16384])).heap 4096 true
        = some (heap1, p) ∧
      (p ≠ 0 → ∃ f,
        maximal_free (state_after 4053 15 12 (List.replicate 5 (Op.malloc 4096) ++
          [Op.free 4096, Op.free 8192, Op.free 12288, Op.free 16384])).heap f ∧
        max 12 (Nat.clog 2 4096) ≤ block_sz (state_after 4053 15 12
          (List.replicate 5 (Op.malloc 4096) ++
          [Op.free 4096, Op.free 8192, Op.free 12288, Op.free 16384])).heap f ∧
        p = block_to_ptr (state_after 4053 15 12 (List.replicate 5 (Op.malloc 4096) ++
          [Op.free 4096, Op.free 8192, Op.free 12288, Op.free 16384])).heap f ∧
        ∀ n, maximal_free (state_after 4053 15 12 (List.replicate 5 (Op.malloc 4096) ++
            [Op.free 4096, Op.free 8192, Op.free 12288, Op.free 16384])).heap n →
          max 12 (Nat.clog 2 4096) ≤ block_sz (state_after 4053 15 12
            (List.replicate 5 (Op.malloc 4096) ++
            [Op.free 4096, Op.free 8192, Op.free 12288, Op.free 16384])).heap n →
          block_sz (state_after 4053 15 12 (List.replicate 5 (Op.malloc 4096) ++
            [Op.free 4096, Op.free 8192, Op.free 12288, Op.free 16384])).heap f
            < block_sz (state_after 4053 15 12 (List.replicate 5 (Op.malloc 4096) ++
            [Op.free 4096, Op.free 8192, Op.free 12288, Op.free 16384])).heap n ∨
          (block_sz (state_after 4053 15 12 (List.replicate 5 (Op.malloc 4096) ++
            [Op.free 4096, Op.free 8192, Op.free 12288, Op.free 16384])).heap f
            = block_sz (state_after 4053 15 12 (List.replicate 5 (Op.malloc 4096) ++
            [Op.free 4096, Op.free 8192, Op.free 12288, Op.free 16384])).heap n ∧
            block_to_ptr (state_after 4053 15 12 (List.replicate 5 (Op.malloc 4096) ++
            [Op.free 4096, Op.free 8192, Op.free 12288, Op.free 16384])).heap f
            ≤ block_to_ptr (state_after 4053 15 12 (List.replicate 5 (Op.malloc 4096) ++
            [Op.free 4096, Op.free 8192, Op.free 12288, Op.free 16384])).heap n)) :=
  ⟨by decide, by decide, by decide, by decide,
    malloc_returns_best_fit_lowest_address 4053 15 12 (by decide) (by decide) _
      (reachable_state_after 4053 15 12 _) 4096 (by decide) (by decide)⟩

/-! ## Failure of the region primitive in `virtual_malloc` -/

/-- Supporting lemma for C14 and C15: for `M ≤ K < 32` and `K - M + 1 < 31`, in
every state reached by valid-use calls
the break is not below `start`; it is not above the end of `last_used_block`
when there is one, and it is `start` when there is none. -/
theorem break_not_above_last_used_block (heapstart K M : Nat) (hMK : M ≤ K)
    (hsh : K < 32 ∧ K - M + 1 < 31)
    (s : alloc_state) (hr : Reachable heapstart K M s) :
    s.heap.start ≤ s.heap.cur_break ∧
    (s.heap.last_used_block ≠ s.heap.num_blocks →
      s.heap.cur_break ≤ block_end s.heap s.heap.last_used_block) ∧
    (s.heap.last_used_block = s.heap.num_blocks → s.heap.cur_break = s.heap.start) := by
  have hK32 : K < 32 := hsh.1
  have hi := reachable_Inv hMK hK32 hr
  have hS := init_start_pos heapstart K M
  refine ⟨by rw [hi.core.hS]; exact hi.core.brk_ge, hi.core.brk_le, fun h => ?_⟩
  rcases hi.core.last_top h with h1 | ⟨_, h1⟩
  · rw [hi.tmp] at h1; omega
  · rw [hi.core.hS]; exact h1
end VirtualAlloc
